import Mathlib

/-!
DataDock: the sliding-window codec of `L7ZZ/l7zz.cpp`, its artifact format, and
the round trips of the dictionary coder (`compresion_unix/lzw.cpp`) and of the
binary-split coder (`shannon-fano/shannon_fano1.2.cpp`).

A shallow embedding of `LZ77::compress` and `LZ77::decompress` and the
properties of the window-match engine and of the token replay, followed by the
embeddings of the other two coders.  All definitions come first, the theorems
after them.

Modelling conventions.

* A `std::string` is a `List Byte`; `size_t` cursors are natural numbers and
  the `int` fields of a token are integers.  The embedding covers buffers
  shorter than `2^31` bytes, on which `static_cast<int>(cursor)` and the
  conversions between `size_t` and `int` are exact.
* Every `while`/`for` loop of the source is a function with a fuel argument
  that answers `none` when the fuel is used up while the loop condition still
  holds; the theorems show that the fuel handed over by the callers is enough.
* `decompress` indexes its output with `decompressed[start + i]`.  An index
  equal to the size reads the terminator `'\0'` of the string; any other index
  outside the string is undefined behaviour in the source and is `none` in the
  model (the source has no failure result of its own).  The index is an
  integer here: a negative one stands for the wrapped `size_t` value of the
  source, which lies far beyond the end of the string.
-/

/-- A byte of a `std::string` (`char`). -/
abbrev Byte := Fin 256

/-- The `struct LZ77Token` of the source. -/
structure LZ77Token where
  offset : Int
  length : Int
  nextChar : Byte
deriving DecidableEq

namespace LZ77

/-- The constant `WINDOW_SIZE` of class `LZ77`. -/
def WINDOW_SIZE : Nat := 1024

/-- The byte `text[i]`; the index is in range wherever `compress` evaluates it. -/
def charAt (text : List Byte) (i : Nat) : Byte := text.getD i 0

/-- The value of `std::max(0, static_cast<int>(cursor) - WINDOW_SIZE)`. -/
def searchStart (cursor : Nat) : Nat :=
  (max (0 : Int) ((cursor : Int) - (WINDOW_SIZE : Int))).toNat

/-- The inner `while` loop of `compress`: starting from `matchLength`, extend the
match of `searchCursor` against `cursor` while the bytes agree and the end of
the text is not reached, leaving through `break` as soon as
`searchCursor + matchLength >= cursor`. -/
def matchLoop (text : List Byte) (searchCursor cursor : Nat) : Nat → Nat → Option Nat
  | 0, matchLength =>
    if cursor + matchLength < text.length ∧
        charAt text (searchCursor + matchLength) = charAt text (cursor + matchLength) then none
    else some matchLength
  | fuel + 1, matchLength =>
    if cursor + matchLength < text.length ∧
        charAt text (searchCursor + matchLength) = charAt text (cursor + matchLength) then
      if searchCursor + (matchLength + 1) ≥ cursor then some (matchLength + 1)
      else matchLoop text searchCursor cursor fuel (matchLength + 1)
    else some matchLength

/-- The `for` loop of `compress` over `searchCursor`, carrying
`(bestOffset, bestLength)`. -/
def searchLoop (text : List Byte) (cursor : Nat) : Nat → Nat → Nat × Nat → Option (Nat × Nat)
  | 0, searchCursor, best => if searchCursor < cursor then none else some best
  | fuel + 1, searchCursor, best =>
    if searchCursor < cursor then
      match matchLoop text searchCursor cursor text.length 0 with
      | none => none
      | some matchLength =>
        if matchLength > best.2 then
          searchLoop text cursor fuel (searchCursor + 1) (cursor - searchCursor, matchLength)
        else searchLoop text cursor fuel (searchCursor + 1) best
    else some best

/-- The body of the outer `while` loop up to `tokens.push_back`: the token
emitted at `cursor`. -/
def tokenAt (text : List Byte) (cursor : Nat) : Option LZ77Token :=
  match searchLoop text cursor cursor (searchStart cursor) (0, 0) with
  | none => none
  | some (bestOffset, bestLength) =>
    let nextChar : Byte :=
      if cursor + bestLength < text.length then charAt text (cursor + bestLength) else 0
    some { offset := (bestOffset : Int), length := (bestLength : Int), nextChar := nextChar }

/-- The outer `while` loop of `compress`, recording with every token the cursor
at which it is emitted. -/
def compressLoop (text : List Byte) : Nat → Nat → Option (List (Nat × LZ77Token))
  | 0, cursor => if cursor < text.length then none else some []
  | fuel + 1, cursor =>
    if cursor < text.length then
      match tokenAt text cursor with
      | none => none
      | some token =>
        match compressLoop text fuel (cursor + token.length.toNat + 1) with
        | none => none
        | some rest => some ((cursor, token) :: rest)
    else some []

/-- The run of `compress` on `text`: the emitted tokens with their cursors. -/
def compressTrace (text : List Byte) : Option (List (Nat × LZ77Token)) :=
  compressLoop text text.length 0

/-- `LZ77::compress`. -/
def compress (text : List Byte) : Option (List LZ77Token) :=
  (compressTrace text).map (List.map Prod.snd)

/-- The value of `decompressed[idx]`: a byte of the string, the terminator at
`idx = size`, and `none` (undefined behaviour) elsewhere. -/
def readAt (decompressed : List Byte) (idx : Int) : Option Byte :=
  if 0 ≤ idx ∧ idx.toNat < decompressed.length then some (decompressed.getD idx.toNat 0)
  else if idx = (decompressed.length : Int) then some 0
  else none

/-- The `for` loop of `decompress`: `n` further iterations from index `i`, each
appending `decompressed[start + i]`. -/
def copyLoop (start : Int) : Nat → Nat → List Byte → Option (List Byte)
  | 0, _, decompressed => some decompressed
  | n + 1, i, decompressed =>
    match readAt decompressed (start + (i : Int)) with
    | none => none
    | some ch => copyLoop start n (i + 1) (decompressed ++ [ch])

/-- One iteration of the range-`for` of `decompress`: replay one token. -/
def decompressStep (decompressed : List Byte) (token : LZ77Token) : Option (List Byte) :=
  let start : Int := (decompressed.length : Int) - token.offset
  match copyLoop start token.length.toNat 0 decompressed with
  | none => none
  | some copied => some (if token.nextChar ≠ 0 then copied ++ [token.nextChar] else copied)

/-- The range-`for` of `decompress` over the tokens, from the output so far. -/
def decompressLoop : List LZ77Token → List Byte → Option (List Byte)
  | [], decompressed => some decompressed
  | token :: rest, decompressed =>
    match decompressStep decompressed token with
    | none => none
    | some next => decompressLoop rest next

/-- `LZ77::decompress`. -/
def decompress (tokens : List LZ77Token) : Option (List Byte) :=
  decompressLoop tokens []

/-- Candidate `s` agrees with the cursor `c` on `n` bytes: the `n` bytes from
`c` lie inside the text and `text[s+k] = text[c+k]` for every `k < n`. -/
def MatchesAt (text : List Byte) (s c n : Nat) : Prop :=
  c + n ≤ text.length ∧ ∀ k, k < n → charAt text (s + k) = charAt text (c + k)

instance (text : List Byte) (s c n : Nat) : Decidable (MatchesAt text s c n) := by
  unfold MatchesAt; exact inferInstance

/-- What the search loop has established about `(bestOffset, bestLength)` once
the candidates of `[lo, hi)` are scanned for cursor `c`. -/
structure BestMatch (text : List Byte) (c lo hi bestOffset bestLength : Nat) : Prop where
  zero : bestLength = 0 → bestOffset = 0
  found : 0 < bestLength → 1 ≤ bestOffset ∧ bestOffset ≤ c ∧ lo ≤ c - bestOffset ∧
    c - bestOffset < hi ∧ bestLength ≤ bestOffset ∧ MatchesAt text (c - bestOffset) c bestLength
  longest : ∀ s n, lo ≤ s → s < hi → n ≤ c - s → MatchesAt text s c n → n ≤ bestLength
  earliest : 0 < bestLength → ∀ s n, lo ≤ s → s + bestOffset < c → n ≤ c - s →
    MatchesAt text s c n → n < bestLength

/-- The list `tr` is a run of the outer loop from cursor `c`: every entry is the
token of its cursor, the next cursor is `cursor + length + 1`, and the run stops
at the first cursor that is not below the size of the text. -/
def IsTrace (text : List Byte) : Nat → List (Nat × LZ77Token) → Prop
  | c, [] => text.length ≤ c
  | c, p :: rest => p.1 = c ∧ c < text.length ∧ tokenAt text c = some p.2 ∧
      IsTrace text (c + p.2.length.toNat + 1) rest

/-- The number of bytes the replay of `tokens` appends when it succeeds. -/
def decodedLength : List LZ77Token → Nat
  | [] => 0
  | token :: rest =>
    token.length.toNat + (if token.nextChar ≠ 0 then 1 else 0) + decodedLength rest

/-- The byte that the `i`-th copy step appends for a back-reference of offset
`o` into the output `out`: the last `o` bytes of `out`, repeated. -/
def periodicByte (out : List Byte) (o i : Nat) : Byte :=
  out.getD (out.length - o + i % o) 0

/-- Counting loop for `lce`: from `k`, advance while `c + k` is inside the text
and `text[s+k] = text[c+k]`. -/
def lceFrom (text : List Byte) (s c : Nat) : Nat → Nat → Nat
  | 0, k => k
  | fuel + 1, k =>
    if c + k < text.length ∧ charAt text (s + k) = charAt text (c + k) then
      lceFrom text s c fuel (k + 1)
    else k

/-- The number `lce(s, c)` of consecutive `k ≥ 0` with `c + k < len(text)` and
`text[s+k] = text[c+k]`, the comparison not being stopped at the cursor. -/
def lce (text : List Byte) (s c : Nat) : Nat := lceFrom text s c text.length 0

end LZ77

/-! The artifact written and read by `saveCompressedFile` and `loadCompressedFile`
of `L7ZZ/l7zz.cpp`.  Files are taken to open; integers are stored as on the
usual platforms (`int` of 4 bytes, `size_t` of 8 bytes, least significant byte
first, two's complement).  The allocation of the token vector is not modelled. -/

namespace L7ZZ

/-- The `width` low-order bytes of `value`, least significant first. -/
def toBytes : Nat → Nat → List Byte
  | 0, _ => []
  | width + 1, value => Fin.ofNat (value % 256) :: toBytes width (value / 256)

/-- The number whose bytes, least significant first, are `bytes`. -/
def ofBytes : List Byte → Nat
  | [] => 0
  | b :: rest => b.val + 256 * ofBytes rest

/-- The four bytes of an `int`: two's complement, least significant first. -/
def intBytes (x : Int) : List Byte := toBytes 4 (x % 4294967296).toNat

/-- The `int` held by four bytes. -/
def intOfBytes (bytes : List Byte) : Int :=
  if ofBytes bytes < 2147483648 then (ofBytes bytes : Int)
  else (ofBytes bytes : Int) - 4294967296

/-- The eight bytes of a `size_t`. -/
def sizeBytes (n : Nat) : List Byte := toBytes 8 (n % 18446744073709551616)

/-- The bytes written for one token by the loop of `saveCompressedFile`: the two
`write` calls and the `put`. -/
def tokenBytes (token : LZ77Token) : List Byte :=
  intBytes token.offset ++ intBytes token.length ++ [token.nextChar]

/-- The bytes `saveCompressedFile` writes when the file opens: the token count,
then offset, length and `nextChar` of every token. -/
def saveCompressedFile (tokens : List LZ77Token) : List Byte :=
  sizeBytes tokens.length ++ tokens.flatMap tokenBytes

/-- An open `std::ifstream`: the bytes not yet read and whether the stream is
still good (neither `failbit` nor `eofbit` set). -/
structure InFile where
  data : List Byte
  good : Bool

/-- The call `inFile.read(buffer, n)` on a buffer that holds `old`: the new
content of the buffer and the stream afterwards.  A short read stores the bytes
that are left and sets `failbit`; a stream that is not good reads nothing. -/
def InFile.read (inFile : InFile) (n : Nat) (old : List Byte) : List Byte × InFile :=
  if inFile.good then
    if n ≤ inFile.data.length then
      (inFile.data.take n, { data := inFile.data.drop n, good := true })
    else (inFile.data ++ old.drop inFile.data.length, { data := [], good := false })
  else (old, inFile)

/-- The call `inFile.get()` converted to `char`: the next byte, or `EOF`
(`-1`, the byte `0xFF`) when there is none. -/
def InFile.get (inFile : InFile) : Byte × InFile :=
  if inFile.good then
    match inFile.data with
    | b :: rest => (b, { data := rest, good := true })
    | [] => (255, { data := [], good := false })
  else (255, inFile)

/-- One iteration of the loop of `loadCompressedFile` on a value-initialised
token. -/
def readToken (inFile : InFile) : LZ77Token × InFile :=
  let r1 := inFile.read 4 (intBytes 0)
  let r2 := r1.2.read 4 (intBytes 0)
  let r3 := r2.2.get
  ({ offset := intOfBytes r1.1, length := intOfBytes r2.1, nextChar := r3.1 }, r3.2)

/-- The loop of `loadCompressedFile` over the `tokenCount` tokens of the vector. -/
def readTokens : Nat → InFile → List LZ77Token
  | 0, _ => []
  | n + 1, inFile => (readToken inFile).1 :: readTokens n (readToken inFile).2

/-- The tokens `loadCompressedFile` returns for a file that opens with the
content `file`.  With fewer than eight bytes `tokenCount` is left uninitialised
and the result is `none`. -/
def loadCompressedFile (file : List Byte) : Option (List LZ77Token) :=
  if file.length < 8 then none
  else some (readTokens (ofBytes (file.take 8)) { data := file.drop 8, good := true })

end L7ZZ

/-! The dictionary coder of `compresion_unix/lzw.cpp`.  A `std::unordered_map` is
the partial function it represents; a thrown `std::runtime_error` and the read
of `compressed[0]` in an empty vector are the two errors of `decompress`. -/

namespace LZWCompression

/-- The initial `std::unordered_map<std::string, int>` of `compress`: the
one-byte string of every `i < 256` is mapped to `i`. -/
def initialDictionary : List Byte → Option Int
  | [b] => some (b.val : Int)
  | _ => none

/-- The assignment `dictionary[key] = value` of `compress`. -/
def insertString (dictionary : List Byte → Option Int) (key : List Byte) (value : Int) :
    List Byte → Option Int :=
  fun k => if k = key then some value else dictionary k

/-- The expression `dictionary[key]` of `compress`: the value found, or a
value-initialised entry `0` that is inserted, and the dictionary afterwards. -/
def lookupString (dictionary : List Byte → Option Int) (key : List Byte) :
    Int × (List Byte → Option Int) :=
  match dictionary key with
  | some value => (value, dictionary)
  | none => (0, insertString dictionary key 0)

/-- The local variables of `compress`. -/
structure CompressState where
  dictionary : List Byte → Option Int
  current : List Byte
  compressed : List Int
  code : Int

/-- The state of `compress` before its loop. -/
def compressInit : CompressState :=
  { dictionary := initialDictionary, current := [], compressed := [], code := 256 }

/-- One iteration of the range-`for` of `compress` on the character `c`. -/
def compressStep (st : CompressState) (c : Byte) : CompressState :=
  let current := st.current ++ [c]
  match st.dictionary current with
  | none =>
    let dictionary := insertString st.dictionary current st.code
    let found := lookupString dictionary current.dropLast
    { dictionary := found.2, current := [c], compressed := st.compressed ++ [found.1],
      code := st.code + 1 }
  | some _ => { st with current := current }

/-- `LZWCompression::compress`. -/
def compress (text : List Byte) : List Int :=
  let st := text.foldl compressStep compressInit
  if st.current ≠ [] then st.compressed ++ [(lookupString st.dictionary st.current).1]
  else st.compressed

/-- How a call of `decompress` can end without a result. -/
inductive DecodeError where
  /-- The `std::runtime_error` "código no encontrado". -/
  | codeNotFound
  /-- The read `compressed[0]` of an empty vector (undefined behaviour). -/
  | emptyInput
deriving DecidableEq

/-- The initial `std::unordered_map<int, std::string>` of `decompress`. -/
def initialTable : Int → Option (List Byte) :=
  fun i => if 0 ≤ i ∧ i < 256 then some [Fin.ofNat i.toNat] else none

/-- The assignment `dictionary[key] = value` of `decompress`. -/
def insertCode (dictionary : Int → Option (List Byte)) (key : Int) (value : List Byte) :
    Int → Option (List Byte) :=
  fun k => if k = key then some value else dictionary k

/-- The local variables of `decompress`. -/
structure DecompressState where
  dictionary : Int → Option (List Byte)
  current : List Byte
  decompressed : List Byte
  code : Int

/-- The state of `decompress` before its loop: `current = dictionary[compressed[0]]`
(an absent key gets the empty string) and `decompressed = current`. -/
def decompressInit (first : Int) : DecompressState :=
  match initialTable first with
  | some entry =>
    { dictionary := initialTable, current := entry, decompressed := entry, code := 256 }
  | none =>
    { dictionary := insertCode initialTable first [], current := [], decompressed := [],
      code := 256 }

/-- The state after the assignments that follow the choice of `entry`; `s[0]` of
an empty string is its terminator `'\\0'`. -/
def decompressNext (st : DecompressState) (entry : List Byte) : DecompressState :=
  { dictionary := insertCode st.dictionary st.code (st.current ++ [entry.headD 0]),
    current := entry, decompressed := st.decompressed ++ entry, code := st.code + 1 }

/-- One iteration of the `for` loop of `decompress` on the code `c`. -/
def decompressStep (st : DecompressState) (c : Int) : Except DecodeError DecompressState :=
  match st.dictionary c with
  | some entry => .ok (decompressNext st entry)
  | none =>
    if c = st.code then .ok (decompressNext st (st.current ++ [st.current.headD 0]))
    else .error .codeNotFound

/-- The `for` loop of `decompress` over the codes after the first. -/
def decompressLoop : List Int → DecompressState → Except DecodeError DecompressState
  | [], st => .ok st
  | c :: rest, st =>
    match decompressStep st c with
    | .error e => .error e
    | .ok next => decompressLoop rest next

/-- The state in which `decompress` leaves its loop. -/
def decompressRun : List Int → Except DecodeError DecompressState
  | [] => .error .emptyInput
  | first :: rest => decompressLoop rest (decompressInit first)

/-- `LZWCompression::decompress`. -/
def decompress (compressed : List Int) : Except DecodeError (List Byte) :=
  match decompressRun compressed with
  | .error e => .error e
  | .ok st => .ok st.decompressed

/-- The relation between the encoder, which has read the non-empty text `t`, and
the decoder run on the codes written so far. -/
structure Sync (t : List Byte) (st : CompressState) : Prop where
  current_ne : st.current ≠ []
  current_in : ∃ v, st.dictionary st.current = some v
  singles : ∀ b : Byte, st.dictionary [b] = some (b.val : Int)
  inj : ∀ k1 k2 v, st.dictionary k1 = some v → st.dictionary k2 = some v → k1 = k2
  bound : ∀ k v, st.dictionary k = some v → v < st.code
  decoded :
    (st.compressed = [] ∧ st.current = t ∧ st.dictionary = initialDictionary ∧ st.code = 256) ∨
    (∃ ds, decompressRun st.compressed = .ok ds ∧ ds.decompressed ++ st.current = t ∧
      ds.code + 1 = st.code ∧ ds.current ≠ [] ∧
      st.dictionary (ds.current ++ [st.current.headD 0]) = some ds.code ∧
      ∀ k v, ds.dictionary v = some k ↔ (st.dictionary k = some v ∧ v ≠ ds.code))

end LZWCompression

/-! The binary-split coder of `shannon-fano/shannon_fano1.2.cpp`.  The maps
`codes` and `reverse_codes` are the partial functions they represent, and the
counts are taken to stay inside `int`. -/

namespace ShannonFano

/-- The empty `std::unordered_map<char, std::string>` left by `clear_codes`. -/
def noCodes : Byte → Option (List Byte) := fun _ => none

/-- The assignment `codes[c] = code`. -/
def setCode (codes : Byte → Option (List Byte)) (c : Byte) (code : List Byte) :
    Byte → Option (List Byte) :=
  fun k => if k = c then some code else codes k

/-- The value `total` of `build_tree`: `std::accumulate` of the counts from 0. -/
def totalCount (frequencies : List (Byte × Int)) : Int :=
  frequencies.foldl (fun sum p => sum + p.2) 0

/-- The `for` loop of `build_tree` that looks for `split`: on the elements still
to visit, from index `i`, with the running `acc` and `split`; `half` is
`total / 2`. -/
def splitLoop (half : Int) : List (Byte × Int) → Nat → Int → Nat → Nat
  | [], _, _, split => split
  | p :: rest, i, acc, split =>
    if acc + p.2 > half then split else splitLoop half rest (i + 1) (acc + p.2) i

/-- The value of `split` after the loop of `build_tree`. -/
def splitIndex (frequencies : List (Byte × Int)) : Nat :=
  splitLoop ((totalCount frequencies).tdiv 2) frequencies 0 0 0

/-- `ShannonFano::build_tree` on the map `codes`; the code strings are the
characters `'0'` (48) and `'1'` (49).  The answer is `none` when the fuel is used
up and when the vector is empty, for which the construction of `left` from
`begin() + 1` is undefined. -/
def build_tree : Nat → List (Byte × Int) → List Byte → (Byte → Option (List Byte)) →
    Option (Byte → Option (List Byte))
  | 0, _, _, _ => none
  | fuel + 1, frequencies, pre, codes =>
    match frequencies with
    | [] => none
    | [p] => some (setCode codes p.1 pre)
    | p :: q :: more =>
      let split := splitIndex (p :: q :: more)
      let left := (p :: q :: more).take (split + 1)
      let right := (p :: q :: more).drop (split + 1)
      match build_tree fuel left (pre ++ [48]) codes with
      | none => none
      | some codes1 => build_tree fuel right (pre ++ [49]) codes1

/-- The vector `frequencies` that `compress` hands to `build_tree` is one of the
vectors described here: one entry per distinct character of the text with its
number of occurrences, in ascending order of the counts.  The order of equal
counts is left open by `std::unordered_map` and `std::sort`. -/
def IsFrequencyVector (text : List Byte) (frequencies : List (Byte × Int)) : Prop :=
  (frequencies.map Prod.fst).Nodup ∧
  (∀ p, p ∈ frequencies → p.1 ∈ text ∧ p.2 = (text.count p.1 : Int)) ∧
  (∀ c, c ∈ text → c ∈ frequencies.map Prod.fst) ∧
  frequencies.Pairwise (fun a b => a.2 ≤ b.2)

instance (text : List Byte) (frequencies : List (Byte × Int)) :
    Decidable (IsFrequencyVector text frequencies) := by
  unfold IsFrequencyVector; exact inferInstance

/-- The map `codes` after the call `build_tree(frequencies, "")` of `compress`. -/
def buildCodes (frequencies : List (Byte × Int)) : Option (Byte → Option (List Byte)) :=
  build_tree frequencies.length frequencies [] noCodes

/-- `ShannonFano::compress` for the sorted vector `frequencies` of the text:
the concatenation of `codes[c]` over the characters (an absent character gives
the empty string). -/
def compress (frequencies : List (Byte × Int)) (text : List Byte) : Option (List Byte) :=
  match buildCodes frequencies with
  | none => none
  | some codes => some (text.flatMap (fun c => (codes c).getD []))

/-- One iteration of the loop of `decompress` on `(decoded, current)`. -/
def decompressStep (reverse_codes : List Byte → Option Byte) (st : List Byte × List Byte)
    (bit : Byte) : List Byte × List Byte :=
  match reverse_codes (st.2 ++ [bit]) with
  | some ch => (st.1 ++ [ch], [])
  | none => (st.1, st.2 ++ [bit])

/-- `ShannonFano::decompress`. -/
def decompress (compressed : List Byte) (loaded_codes : List Byte → Option Byte) : List Byte :=
  (compressed.foldl (decompressStep loaded_codes) ([], [])).1

/-- What a call `build_tree(frequencies, pre)` establishes: it turns `codes` into
`codes2` by giving every character of the vector a code that extends `pre`, no
code of one character being the beginning of the code of another. -/
structure TreeCodes (frequencies : List (Byte × Int)) (pre : List Byte)
    (codes codes2 : Byte → Option (List Byte)) : Prop where
  outside : ∀ c, c ∉ frequencies.map Prod.fst → codes2 c = codes c
  inside : ∀ c, c ∈ frequencies.map Prod.fst →
    ∃ s, codes2 c = some (pre ++ s) ∧ (2 ≤ frequencies.length → s ≠ [])
  free : ∀ c1 c2 w1 w2, c1 ∈ frequencies.map Prod.fst → c2 ∈ frequencies.map Prod.fst →
    c1 ≠ c2 → codes2 c1 = some w1 → codes2 c2 = some w2 → ∀ s, w1 ++ s ≠ w2

end ShannonFano

/-! ## The match loops -/

namespace LZ77

theorem searchStart_eq (cursor : Nat) : searchStart cursor = cursor - 1024 := by
  unfold searchStart WINDOW_SIZE
  omega

theorem MatchesAt.mono {text : List Byte} {s c n m : Nat} (h : MatchesAt text s c n)
    (hm : m ≤ n) : MatchesAt text s c m :=
  ⟨by have := h.1; omega, fun k hk => h.2 k (by omega)⟩

theorem matchesAt_zero {text : List Byte} {s c : Nat} (hc : c ≤ text.length) :
    MatchesAt text s c 0 :=
  ⟨by omega, fun k hk => by omega⟩

theorem matchLoop_spec (text : List Byte) (s c : Nat) :
    ∀ (fuel ml : Nat), s + ml < c → c ≤ s + ml + fuel → MatchesAt text s c ml →
      ∃ m, matchLoop text s c fuel ml = some m ∧ MatchesAt text s c m ∧ m ≤ c - s ∧
        (m = c - s ∨ ¬ MatchesAt text s c (m + 1)) := by
  intro fuel
  induction fuel with
  | zero => intro ml h1 h2 _; omega
  | succ fuel ih =>
    intro ml h1 h2 hm
    unfold matchLoop
    by_cases hcond : c + ml < text.length ∧ charAt text (s + ml) = charAt text (c + ml)
    · rw [if_pos hcond]
      have hm1 : MatchesAt text s c (ml + 1) := by
        refine ⟨by omega, fun k hk => ?_⟩
        by_cases hk2 : k < ml
        · exact hm.2 k hk2
        · have : k = ml := by omega
          subst this
          exact hcond.2
      by_cases hbrk : s + (ml + 1) ≥ c
      · rw [if_pos hbrk]
        exact ⟨ml + 1, rfl, hm1, by omega, Or.inl (by omega)⟩
      · rw [if_neg hbrk]
        exact ih (ml + 1) (by omega) (by omega) hm1
    · rw [if_neg hcond]
      refine ⟨ml, rfl, hm, by omega, Or.inr ?_⟩
      intro h
      apply hcond
      exact ⟨by have := h.1; omega, h.2 ml (by omega)⟩

theorem matchLoop_longest (text : List Byte) (s c : Nat) (hs : s < c) (hc : c ≤ text.length) :
    ∃ m, matchLoop text s c text.length 0 = some m ∧ MatchesAt text s c m ∧ m ≤ c - s ∧
      ∀ n, n ≤ c - s → MatchesAt text s c n → n ≤ m := by
  obtain ⟨m, hm, hmat, hcap, hmax⟩ :=
    matchLoop_spec text s c text.length 0 (by omega) (by omega) (matchesAt_zero hc)
  refine ⟨m, hm, hmat, hcap, fun n hn hmn => ?_⟩
  rcases hmax with h | h
  · omega
  · by_contra hlt
    exact h (hmn.mono (by omega))

theorem searchLoop_spec (text : List Byte) (c lo : Nat) (hc : c ≤ text.length) :
    ∀ (fuel s bo bl : Nat), lo ≤ s → s ≤ c → c ≤ s + fuel → BestMatch text c lo s bo bl →
      ∃ bo2 bl2, searchLoop text c fuel s (bo, bl) = some (bo2, bl2) ∧
        BestMatch text c lo c bo2 bl2 := by
  intro fuel
  induction fuel with
  | zero =>
    intro s bo bl _ h2 h3 hb
    have hsc : s = c := by omega
    subst hsc
    exact ⟨bo, bl, by simp [searchLoop], hb⟩
  | succ fuel ih =>
    intro s bo bl h1 h2 h3 hb
    unfold searchLoop
    by_cases hsc : s < c
    · rw [if_pos hsc]
      obtain ⟨m, hm, hmat, hcap, hmax⟩ := matchLoop_longest text s c hsc hc
      rw [hm]
      by_cases hgt : m > bl
      · simp only [hgt, if_true]
        apply ih (s + 1) (c - s) m (by omega) (by omega) (by omega)
        refine ⟨fun h => by omega, fun _ => ?_, ?_, ?_⟩
        · have e : c - (c - s) = s := by omega
          rw [e]
          exact ⟨by omega, by omega, h1, by omega, hcap, hmat⟩
        · intro t n ht1 ht2 hn hmn
          by_cases hts : t = s
          · subst hts; exact hmax n hn hmn
          · have := hb.longest t n ht1 (by omega) hn hmn
            omega
        · intro _ t n ht1 ht2 hn hmn
          have := hb.longest t n ht1 (by omega) hn hmn
          omega
      · simp only [hgt, if_false]
        apply ih (s + 1) bo bl (by omega) (by omega) (by omega)
        refine ⟨hb.zero, fun h => ?_, ?_, hb.earliest⟩
        · obtain ⟨a1, a2, a3, a4, a5, a6⟩ := hb.found h
          exact ⟨a1, a2, a3, by omega, a5, a6⟩
        · intro t n ht1 ht2 hn hmn
          by_cases hts : t = s
          · subst hts
            have := hmax n hn hmn
            omega
          · exact hb.longest t n ht1 (by omega) hn hmn
    · rw [if_neg hsc]
      have hsc2 : s = c := by omega
      subst hsc2
      exact ⟨bo, bl, rfl, hb⟩

/-- The token of a cursor inside the text, described by the search invariant. -/
theorem tokenAt_spec (text : List Byte) (c : Nat) (hc : c < text.length) :
    ∃ bo bl, BestMatch text c (c - 1024) c bo bl ∧ c + bl ≤ text.length ∧
      tokenAt text c = some
        { offset := (bo : Int), length := (bl : Int),
          nextChar := if c + bl < text.length then charAt text (c + bl) else 0 } := by
  have hinit : BestMatch text c (c - 1024) (c - 1024) 0 0 :=
    ⟨fun _ => rfl, fun h => by omega, fun s n h1 h2 => by omega, fun h => by omega⟩
  obtain ⟨bo, bl, hs, hb⟩ :=
    searchLoop_spec text c (c - 1024) (by omega) c (c - 1024) 0 0 (by omega) (by omega)
      (by omega) hinit
  refine ⟨bo, bl, hb, ?_, ?_⟩
  · by_cases h : 0 < bl
    · exact (hb.found h).2.2.2.2.2.1
    · omega
  · unfold tokenAt
    rw [searchStart_eq, hs]

theorem compressLoop_isTrace (text : List Byte) :
    ∀ (fuel c : Nat), text.length ≤ c + fuel →
      ∃ tr, compressLoop text fuel c = some tr ∧ IsTrace text c tr := by
  intro fuel
  induction fuel with
  | zero =>
    intro c h
    exact ⟨[], by simp [compressLoop]; omega, by simpa [IsTrace] using h⟩
  | succ fuel ih =>
    intro c h
    unfold compressLoop
    by_cases hc : c < text.length
    · rw [if_pos hc]
      obtain ⟨bo, bl, _, _, htok⟩ := tokenAt_spec text c hc
      rw [htok]
      obtain ⟨rest, hrest, htr⟩ := ih (c + ((bl : Int)).toNat + 1) (by omega)
      simp only [hrest]
      exact ⟨_, rfl, rfl, hc, htok, htr⟩
    · rw [if_neg hc]
      exact ⟨[], rfl, by simp [IsTrace]; omega⟩

theorem compressTrace_isTrace (text : List Byte) :
    ∃ tr, compressTrace text = some tr ∧ IsTrace text 0 tr :=
  compressLoop_isTrace text text.length 0 (by omega)

/-! ## Runs of the outer loop -/

theorem isTrace_mem (text : List Byte) :
    ∀ (tr : List (Nat × LZ77Token)) (c : Nat), IsTrace text c tr →
      ∀ p, p ∈ tr → c ≤ p.1 ∧ p.1 < text.length ∧ tokenAt text p.1 = some p.2 := by
  intro tr
  induction tr with
  | nil => intro c _ p hp; simp at hp
  | cons q rest ih =>
    intro c h p hp
    obtain ⟨h1, h2, h3, h4⟩ := h
    rcases List.mem_cons.1 hp with e | hmem
    · subst e
      exact ⟨by omega, by omega, by rw [h1]; exact h3⟩
    · have := ih _ h4 p hmem
      exact ⟨by omega, this.2.1, this.2.2⟩

/-- Every entry of a run is the token described by the search invariant. -/
theorem isTrace_token (text : List Byte) (tr : List (Nat × LZ77Token)) (c0 : Nat)
    (h : IsTrace text c0 tr) (c : Nat) (tok : LZ77Token) (hp : (c, tok) ∈ tr) :
    ∃ bo bl, BestMatch text c (c - 1024) c bo bl ∧ c + bl ≤ text.length ∧ c < text.length ∧
      tok = { offset := (bo : Int), length := (bl : Int),
              nextChar := if c + bl < text.length then charAt text (c + bl) else 0 } := by
  obtain ⟨_, h2, h3⟩ := isTrace_mem text tr c0 h (c, tok) hp
  obtain ⟨bo, bl, hb, hle, htok⟩ := tokenAt_spec text c h2
  refine ⟨bo, bl, hb, hle, h2, ?_⟩
  simp only at h3
  rw [htok] at h3
  exact (Option.some.inj h3).symm

theorem isTrace_head (text : List Byte) (tr : List (Nat × LZ77Token)) (c : Nat)
    (h : IsTrace text c tr) (p : Nat × LZ77Token) (hp : tr[0]? = some p) : p.1 = c := by
  cases tr with
  | nil => simp at hp
  | cons q rest =>
    simp at hp
    subst hp
    exact h.1

theorem isTrace_next (text : List Byte) :
    ∀ (tr : List (Nat × LZ77Token)) (c i : Nat), IsTrace text c tr →
      ∀ p q, tr[i]? = some p → tr[i + 1]? = some q → q.1 = p.1 + p.2.length.toNat + 1 := by
  intro tr
  induction tr with
  | nil => intro c i _ p q hp; simp at hp
  | cons a rest ih =>
    intro c i h p q hp hq
    obtain ⟨h1, _, _, h4⟩ := h
    cases i with
    | zero =>
      simp at hp hq
      subst hp
      rw [isTrace_head text rest _ h4 q hq, h1]
    | succ i =>
      simp at hp hq
      exact ih _ i h4 p q hp hq

theorem isTrace_last (text : List Byte) :
    ∀ (tr : List (Nat × LZ77Token)) (c i : Nat), IsTrace text c tr →
      ∀ p, tr[i]? = some p → text.length ≤ p.1 + p.2.length.toNat → i + 1 = tr.length := by
  intro tr
  induction tr with
  | nil => intro c i _ p hp; simp at hp
  | cons a rest ih =>
    intro c i h p hp hlen
    obtain ⟨h1, _, _, h4⟩ := h
    cases i with
    | zero =>
      simp at hp
      subst hp
      cases rest with
      | nil => rfl
      | cons r rest2 =>
        obtain ⟨g1, g2, _, _⟩ := h4
        omega
    | succ i =>
      simp at hp
      have := ih _ i h4 p hp hlen
      simp
      omega

theorem isTrace_length (text : List Byte) :
    ∀ (tr : List (Nat × LZ77Token)) (c : Nat), IsTrace text c tr →
      c + tr.length ≤ max c text.length := by
  intro tr
  induction tr with
  | nil => intro c _; simp
  | cons a rest ih =>
    intro c h
    obtain ⟨_, h2, _, h4⟩ := h
    have := ih _ h4
    simp only [List.length_cons]
    omega

theorem charAt_getElem? (text : List Byte) (i : Nat) (h : i < text.length) :
    text[i]? = some (charAt text i) := by
  simp [charAt, List.getD, List.getElem?_eq_getElem h]

/-! ## The replay -/

theorem readAt_inside (d : List Byte) (j : Nat) (h : j < d.length) :
    readAt d (j : Int) = some (d.getD j 0) := by
  unfold readAt
  rw [if_pos ⟨by omega, by simpa using h⟩]
  simp

theorem periodic_read (out : List Byte) (o i : Nat) (h1 : 1 ≤ o) (h2 : o ≤ out.length) :
    (out ++ (List.range i).map (periodicByte out o)).getD (out.length - o + i) 0 =
      periodicByte out o i := by
  by_cases hi : i < o
  · rw [List.getD_append _ _ _ _ (by omega)]
    unfold periodicByte
    rw [Nat.mod_eq_of_lt hi]
  · have e : out.length - o + i = out.length + (i - o) := by omega
    rw [e, List.getD_append_right _ _ _ _ (by omega)]
    have e2 : out.length + (i - o) - out.length = i - o := by omega
    rw [e2]
    have hlt : i - o < ((List.range i).map (periodicByte out o)).length := by
      simp; omega
    rw [List.getD_eq_getElem _ _ hlt]
    simp only [List.getElem_map, List.getElem_range]
    unfold periodicByte
    rw [Nat.mod_eq_sub_mod (by omega : i ≥ o)]

theorem copyLoop_periodic (out : List Byte) (o : Nat) (h1 : 1 ≤ o) (h2 : o ≤ out.length) :
    ∀ (n i : Nat),
      copyLoop ((out.length : Int) - (o : Int)) n i
          (out ++ (List.range i).map (periodicByte out o)) =
        some (out ++ (List.range (i + n)).map (periodicByte out o)) := by
  intro n
  induction n with
  | zero => intro i; rfl
  | succ n ih =>
    intro i
    unfold copyLoop
    have hidx : (out.length : Int) - (o : Int) + (i : Int) = ((out.length - o + i : Nat) : Int) := by
      omega
    rw [hidx, readAt_inside _ _ (by simp; omega), periodic_read out o i h1 h2]
    simp only
    have hr : out ++ (List.range i).map (periodicByte out o) ++ [periodicByte out o i] =
        out ++ (List.range (i + 1)).map (periodicByte out o) := by
      rw [List.range_succ, List.map_append, List.append_assoc]
      rfl
    rw [hr, ih (i + 1), show i + 1 + n = i + (n + 1) by omega]

theorem copyLoop_length (start : Int) :
    ∀ (n i : Nat) (d r : List Byte), copyLoop start n i d = some r → r.length = d.length + n := by
  intro n
  induction n with
  | zero => intro i d r h; simp [copyLoop] at h; subst h; rfl
  | succ n ih =>
    intro i d r h
    unfold copyLoop at h
    cases hr : readAt d (start + (i : Int)) with
    | none => rw [hr] at h; simp at h
    | some ch =>
      rw [hr] at h
      have := ih (i + 1) _ r h
      simp at this
      omega
theorem decompressStep_valid (out : List Byte) (o L : Nat) (lit : Byte)
    (h1 : 1 ≤ o) (h2 : o ≤ out.length) :
    decompressStep out { offset := (o : Int), length := (L : Int), nextChar := lit } =
      some (out ++ (List.range L).map (periodicByte out o) ++
        (if lit ≠ 0 then [lit] else [])) := by
  unfold decompressStep
  have h := copyLoop_periodic out o h1 h2 L 0
  simp only [List.range_zero, List.map_nil, List.append_nil, Nat.zero_add] at h
  simp only [Int.toNat_ofNat, h]
  split <;> simp

theorem decompressStep_literal (out : List Byte) (o : Int) (lit : Byte) :
    decompressStep out { offset := o, length := 0, nextChar := lit } =
      some (out ++ (if lit ≠ 0 then [lit] else [])) := by
  unfold decompressStep
  simp only [Int.toNat_zero, copyLoop]
  split <;> simp

theorem copied_eq_take (text : List Byte) (c bo bl : Nat) (h2 : bo ≤ c)
    (h3 : bl ≤ bo) (hm : MatchesAt text (c - bo) c bl) :
    text.take c ++ (List.range bl).map (periodicByte (text.take c) bo) = text.take (c + bl) := by
  have hlen := hm.1
  rw [List.take_add]
  congr 1
  apply List.ext_getElem
  · simp; omega
  · intro i hi1 hi2
    simp only [List.length_map, List.length_range] at hi1
    simp only [List.getElem_map, List.getElem_range, List.getElem_take, List.getElem_drop]
    unfold periodicByte
    have hl : (text.take c).length = c := by simp; omega
    rw [hl, Nat.mod_eq_of_lt (by omega : i < bo)]
    have hlt : c - bo + i < (text.take c).length := by omega
    rw [List.getD_eq_getElem _ _ hlt, List.getElem_take]
    have := hm.2 i hi1
    unfold charAt at this
    rw [List.getD_eq_getElem _ _ (by omega : c - bo + i < text.length),
      List.getD_eq_getElem _ _ (by omega : c + i < text.length)] at this
    exact this

/-- Replaying the token of cursor `c` on the first `c` bytes of the text yields
the copied run; the literal follows unless it is the byte `0x00`. -/
theorem decompressStep_token (text : List Byte) (c bo bl : Nat) (hc : c < text.length)
    (hb : BestMatch text c (c - 1024) c bo bl) (lit : Byte) :
    decompressStep (text.take c) { offset := (bo : Int), length := (bl : Int), nextChar := lit } =
      some (text.take (c + bl) ++ (if lit ≠ 0 then [lit] else [])) := by
  by_cases h0 : 0 < bl
  · obtain ⟨a1, a2, _, _, a5, a6⟩ := hb.found h0
    rw [decompressStep_valid _ bo bl lit a1 (by simp; omega), copied_eq_take text c bo bl a2 a5 a6]
  · have e : bl = 0 := by omega
    subst e
    exact decompressStep_literal _ _ lit

theorem take_succ_charAt (text : List Byte) (n : Nat) (h : n < text.length) :
    text.take n ++ [charAt text n] = text.take (n + 1) := by
  rw [List.take_succ, List.getElem?_eq_getElem h]
  simp [charAt, List.getD, List.getElem?_eq_getElem h]

theorem charAt_ne_zero (text : List Byte) (hz : (0 : Byte) ∉ text) (n : Nat)
    (h : n < text.length) : charAt text n ≠ 0 := by
  intro e
  apply hz
  have : charAt text n = text[n] := by
    simp [charAt, List.getD, List.getElem?_eq_getElem h]
  rw [← e, this]
  exact List.getElem_mem h

/-- The replay of a run from cursor `c`, started on the first `c` bytes of a
text without the byte `0x00`, rebuilds the text. -/
theorem decompressLoop_isTrace (text : List Byte) (hz : (0 : Byte) ∉ text) :
    ∀ (tr : List (Nat × LZ77Token)) (c : Nat), IsTrace text c tr →
      decompressLoop (tr.map Prod.snd) (text.take c) = some text := by
  intro tr
  induction tr with
  | nil =>
    intro c h
    simp only [IsTrace] at h
    simp [decompressLoop, List.take_of_length_le h]
  | cons p rest ih =>
    intro c h
    obtain ⟨_, h2, h3, h4⟩ := h
    obtain ⟨bo, bl, hb, hle, htok⟩ := tokenAt_spec text c h2
    rw [htok] at h3
    have hp := (Option.some.inj h3).symm
    simp only [List.map_cons, decompressLoop]
    rw [hp, decompressStep_token text c bo bl h2 hb]
    rw [hp] at h4
    simp only [Int.toNat_ofNat] at h4
    have hnext : (text.take (c + bl) ++
        (if (if c + bl < text.length then charAt text (c + bl) else 0) ≠ 0 then
          [if c + bl < text.length then charAt text (c + bl) else 0] else [])) =
        text.take (c + bl + 1) := by
      by_cases hlt : c + bl < text.length
      · simp only [hlt, if_true, charAt_ne_zero text hz _ hlt, ne_eq, not_false_eq_true]
        exact take_succ_charAt text _ hlt
      · simp only [hlt, if_false, ne_eq, not_true_eq_false, List.append_nil]
        rw [List.take_of_length_le (by omega), List.take_of_length_le (by omega)]
    rw [hnext]
    exact ih _ h4

/-- Round trip on every text without the byte `0x00`. -/
theorem roundtrip_of_no_zero (text : List Byte) (hz : (0 : Byte) ∉ text) :
    (compress text).bind decompress = some text := by
  obtain ⟨tr, htr, his⟩ := compressTrace_isTrace text
  unfold compress decompress
  rw [htr]
  simpa using decompressLoop_isTrace text hz tr 0 his

/-! ## The sentinel byte -/

theorem decompressStep_length (d r : List Byte) (t : LZ77Token)
    (h : decompressStep d t = some r) :
    r.length = d.length + (t.length.toNat + (if t.nextChar ≠ 0 then 1 else 0)) := by
  unfold decompressStep at h
  simp only at h
  cases hc : copyLoop ((d.length : Int) - t.offset) t.length.toNat 0 d with
  | none => rw [hc] at h; simp at h
  | some copied =>
    rw [hc] at h
    have hl := copyLoop_length _ _ _ _ _ hc
    simp only [Option.some.injEq] at h
    subst h
    split
    · simp [hl]; omega
    · simp [hl]

theorem decompressLoop_length :
    ∀ (ts : List LZ77Token) (d r : List Byte), decompressLoop ts d = some r →
      r.length = d.length + decodedLength ts := by
  intro ts
  induction ts with
  | nil => intro d r h; simp [decompressLoop] at h; subst h; simp [decodedLength]
  | cons t rest ih =>
    intro d r h
    unfold decompressLoop at h
    cases hs : decompressStep d t with
    | none => rw [hs] at h; simp at h
    | some next =>
      rw [hs] at h
      have h1 := ih next r h
      have h2 := decompressStep_length d next t hs
      simp only [decodedLength]
      omega

theorem literal_count_le (b : Byte) : (if b ≠ 0 then 1 else 0) ≤ 1 := by
  split <;> omega

theorem isTrace_decoded_le (text : List Byte) :
    ∀ (tr : List (Nat × LZ77Token)) (c : Nat), IsTrace text c tr → c ≤ text.length →
      c + decodedLength (tr.map Prod.snd) ≤ text.length := by
  intro tr
  induction tr with
  | nil => intro c _ hc; simpa [decodedLength] using hc
  | cons p rest ih =>
    intro c h _
    obtain ⟨_, h2, h3, h4⟩ := h
    obtain ⟨bo, bl, _, hle, htok⟩ := tokenAt_spec text c h2
    rw [htok] at h3
    have hp := (Option.some.inj h3).symm
    rw [hp] at h4
    simp only [Int.toNat_ofNat] at h4
    simp only [List.map_cons, decodedLength, hp, Int.toNat_ofNat]
    have hlit := literal_count_le (if c + bl < text.length then charAt text (c + bl) else 0)
    by_cases hlt : c + bl < text.length
    · have := ih _ h4 (by omega)
      omega
    · cases rest with
      | nil => simp [hlt, decodedLength]; omega
      | cons q rest2 =>
        obtain ⟨g1, g2, _, _⟩ := h4
        omega

/-- A run that starts at or before the first `0x00` byte of the text decodes to
fewer bytes than the text has. -/
theorem isTrace_decoded_lt (text : List Byte) (z : Nat) (hz : z < text.length)
    (hz0 : charAt text z = 0) (hfirst : ∀ q, q < z → charAt text q ≠ 0) :
    ∀ (tr : List (Nat × LZ77Token)) (c : Nat), IsTrace text c tr → c ≤ z →
      c + decodedLength (tr.map Prod.snd) < text.length := by
  intro tr
  induction tr with
  | nil => intro c h hc; simp only [IsTrace] at h; omega
  | cons p rest ih =>
    intro c h hcz
    obtain ⟨_, h2, h3, h4⟩ := h
    obtain ⟨bo, bl, hb, hle, htok⟩ := tokenAt_spec text c h2
    rw [htok] at h3
    have hp := (Option.some.inj h3).symm
    rw [hp] at h4
    simp only [Int.toNat_ofNat] at h4
    simp only [List.map_cons, decodedLength, hp, Int.toNat_ofNat]
    by_cases hin : z < c + bl
    · exfalso
      obtain ⟨a1, a2, _, _, _, a6⟩ := hb.found (by omega)
      have e := a6.2 (z - c) (by omega)
      rw [show c + (z - c) = z by omega, hz0] at e
      exact hfirst (c - bo + (z - c)) (by omega) e
    · by_cases heq : z = c + bl
      · have hlt : c + bl < text.length := by omega
        have := isTrace_decoded_le text rest _ h4 (by omega)
        have hlit : (if c + bl < text.length then charAt text (c + bl) else 0) = 0 := by
          rw [if_pos hlt, ← heq, hz0]
        rw [hlit]
        simp only [ne_eq, not_true_eq_false, if_false]
        omega
      · have := ih _ h4 (by omega)
        have hlit := literal_count_le (if c + bl < text.length then charAt text (c + bl) else 0)
        omega

theorem exists_first_zero (text : List Byte) (h : (0 : Byte) ∈ text) :
    ∃ z, z < text.length ∧ charAt text z = 0 ∧ ∀ q, q < z → charAt text q ≠ 0 := by
  have hex : ∃ z, z < text.length ∧ charAt text z = 0 := by
    obtain ⟨n, hn, e⟩ := List.mem_iff_getElem.1 h
    exact ⟨n, hn, by simp [charAt, List.getD, List.getElem?_eq_getElem hn, e]⟩
  refine ⟨Nat.find hex, (Nat.find_spec hex).1, (Nat.find_spec hex).2, fun q hq e => ?_⟩
  exact Nat.find_min hex hq ⟨by have := (Nat.find_spec hex).1; omega, e⟩

/-- A text that contains the byte `0x00` does not survive the round trip. -/
theorem roundtrip_fails_of_zero (text : List Byte) (h : (0 : Byte) ∈ text) :
    (compress text).bind decompress ≠ some text := by
  obtain ⟨z, hz, hz0, hfirst⟩ := exists_first_zero text h
  obtain ⟨tr, htr, his⟩ := compressTrace_isTrace text
  unfold compress decompress
  rw [htr]
  simp only [Option.map_some', Option.some_bind]
  intro hdec
  have h1 := decompressLoop_length _ _ _ hdec
  have h2 := isTrace_decoded_lt text z hz hz0 hfirst tr 0 his (by omega)
  simp at h1
  omega

theorem isTrace_unique (text : List Byte) :
    ∀ (tr1 tr2 : List (Nat × LZ77Token)) (c : Nat), IsTrace text c tr1 → IsTrace text c tr2 →
      tr1 = tr2 := by
  intro tr1
  induction tr1 with
  | nil =>
    intro tr2 c h1 h2
    cases tr2 with
    | nil => rfl
    | cons q rest =>
      simp only [IsTrace] at h1
      have := h2.2.1
      omega
  | cons p rest ih =>
    intro tr2 c h1 h2
    cases tr2 with
    | nil =>
      simp only [IsTrace] at h2
      have := h1.2.1
      omega
    | cons q rest2 =>
      obtain ⟨a1, _, a3, a4⟩ := h1
      obtain ⟨b1, _, b3, b4⟩ := h2
      have e2 : p.2 = q.2 := Option.some.inj (a3.symm.trans b3)
      have e : p = q := Prod.ext (a1.trans b1.symm) e2
      subst e
      rw [ih rest2 _ a4 b4]

/-! ## The claims -/

/-- C1 (as amended): `decompress (compress b)` is `b` exactly for the buffers `b`
that contain no byte `0x00`; this includes the empty buffer, and a buffer with a
`0x00` byte never survives the round trip. -/
theorem roundtrip_iff_no_zero (b : List Byte) :
    (compress b).bind decompress = some b ↔ (0 : Byte) ∉ b := by
  constructor
  · intro h hz
    exact roundtrip_fails_of_zero b hz h
  · exact roundtrip_of_no_zero b

/-- C1 (counterexample): the one-byte buffer `[0x00]` is encoded as the single
token `(0, 0, 0x00)` and decoded as the empty buffer. -/
theorem roundtrip_zero_byte_lost :
    compress [0] = some [{ offset := 0, length := 0, nextChar := 0 }] ∧
      (compress [0]).bind decompress = some [] ∧
      ¬ ((compress [0]).bind decompress = some [0]) := by
  decide

/-- C2: every token with `length > 0` that `compress` emits at a cursor `c`
points at equal bytes of the source: `1 ≤ offset ≤ c`, and for every
`k < length` the position `c + k` is inside `b` and
`b[c - offset + k] = b[c + k]`. -/
theorem compress_match_sound (b : List Byte) :
    ∃ tr, compressTrace b = some tr ∧ compress b = some (tr.map Prod.snd) ∧
      ∀ c tok, (c, tok) ∈ tr → 0 < tok.length →
        1 ≤ tok.offset ∧ tok.offset ≤ (c : Int) ∧
        ∀ k : Nat, (k : Int) < tok.length →
          c + k < b.length ∧ b[c - tok.offset.toNat + k]? = b[c + k]? := by
  obtain ⟨tr, htr, his⟩ := compressTrace_isTrace b
  refine ⟨tr, htr, by simp [compress, htr], fun c tok hmem hpos => ?_⟩
  obtain ⟨bo, bl, hb, hle, hc, rfl⟩ := isTrace_token b tr 0 his c tok hmem
  simp only [Int.natCast_pos] at hpos
  obtain ⟨a1, a2, _, _, _, a6⟩ := hb.found hpos
  refine ⟨by simpa using a1, by simpa using a2, fun k hk => ?_⟩
  simp only [Nat.cast_lt] at hk
  have e := a6.2 k hk
  refine ⟨by omega, ?_⟩
  simp only [Int.toNat_ofNat]
  rw [charAt_getElem? b _ (by omega), charAt_getElem? b _ (by omega), e]

/-- C3: for an output prefix `out` and a token with `1 ≤ offset ≤ len(out)`, one
replay step appends exactly `length` bytes, the `i`-th being
`out[len(out) - offset + (i mod offset)]` (an index inside `out`), and then the
literal unless it is `0x00`. -/
theorem decompressStep_overlap (out : List Byte) (tok : LZ77Token)
    (h1 : 1 ≤ tok.offset) (h2 : tok.offset ≤ (out.length : Int)) :
    decompressStep out tok =
      some (out ++
        (List.range tok.length.toNat).map
          (fun i => out.getD (out.length - tok.offset.toNat + i % tok.offset.toNat) 0) ++
        (if tok.nextChar ≠ 0 then [tok.nextChar] else [])) := by
  obtain ⟨o, L, lit⟩ := tok
  simp only at h1 h2
  obtain ⟨o, rfl⟩ := Int.eq_ofNat_of_zero_le (by omega : 0 ≤ o)
  by_cases hL : 0 ≤ L
  · obtain ⟨L, rfl⟩ := Int.eq_ofNat_of_zero_le hL
    exact decompressStep_valid out o L lit (by omega) (by omega)
  · have e : L.toNat = 0 := by omega
    unfold decompressStep
    simp only [e, copyLoop, List.range_zero, List.map_nil, List.append_nil]
    split <;> simp

/-- C3 (witness): the tokens `[(0,0,'a'), (1,9,0x00)]` decode to ten bytes `'a'`;
the second step copies nine bytes from one byte of output. -/
theorem decompressStep_overlap_witness :
    (1 : Int) ≤ 1 ∧ (1 : Int) ≤ (([97] : List Byte).length : Int) ∧
      decompressStep [97] { offset := 1, length := 9, nextChar := 0 } =
        some (List.replicate 10 97) ∧
      decompress [{ offset := 0, length := 0, nextChar := 97 },
        { offset := 1, length := 9, nextChar := 0 }] = some (List.replicate 10 97) :=
  ⟨by decide, by decide,
    (decompressStep_overlap [97] { offset := 1, length := 9, nextChar := 0 }
      (by decide) (by decide)).trans (by decide), by decide⟩

/-- C4: every token that `compress` emits at a cursor `c` has
`1 ≤ offset ≤ min(c, 1024)` when `length > 0` and `offset = 0` when
`length = 0`; no emitted token has an offset above `WINDOW_SIZE = 1024`. -/
theorem compress_offset_window (b : List Byte) :
    ∃ tr, compressTrace b = some tr ∧ compress b = some (tr.map Prod.snd) ∧
      ∀ c tok, (c, tok) ∈ tr →
        0 ≤ tok.length ∧
        (0 < tok.length → 1 ≤ tok.offset ∧ tok.offset ≤ ((min c 1024 : Nat) : Int)) ∧
        (tok.length = 0 → tok.offset = 0) ∧
        tok.offset ≤ (WINDOW_SIZE : Int) := by
  obtain ⟨tr, htr, his⟩ := compressTrace_isTrace b
  refine ⟨tr, htr, by simp [compress, htr], fun c tok hmem => ?_⟩
  obtain ⟨bo, bl, hb, hle, hc, rfl⟩ := isTrace_token b tr 0 his c tok hmem
  have hz := hb.zero
  have hf := hb.found
  simp only [WINDOW_SIZE]
  refine ⟨by omega, fun h => ?_, fun h => ?_, ?_⟩
  · have := hf (by omega)
    omega
  · have := hz (by omega)
    omega
  · by_cases h0 : 0 < bl
    · have := hf h0
      omega
    · have := hz (by omega)
      omega

/-- C5: the `i`-th token of the run, emitted at cursor `c` with length `L`, has
`c + L ≤ len(b)`; its literal is `b[c + L]` when `c + L < len(b)` and the
sentinel `0x00` when `c + L = len(b)`, which happens only for the last token. -/
theorem compress_trailing_literal (b : List Byte) :
    ∃ tr, compressTrace b = some tr ∧ compress b = some (tr.map Prod.snd) ∧
      ∀ (i c : Nat) (tok : LZ77Token), tr[i]? = some (c, tok) →
        (c : Int) + tok.length ≤ (b.length : Int) ∧
        ((c : Int) + tok.length < (b.length : Int) →
          b[c + tok.length.toNat]? = some tok.nextChar) ∧
        ((c : Int) + tok.length = (b.length : Int) →
          tok.nextChar = 0 ∧ i + 1 = tr.length) := by
  obtain ⟨tr, htr, his⟩ := compressTrace_isTrace b
  refine ⟨tr, htr, by simp [compress, htr], fun i c tok hi => ?_⟩
  have hlast := isTrace_last b tr 0 i his (c, tok) hi
  obtain ⟨bo, bl, hb, hle, hc, rfl⟩ := isTrace_token b tr 0 his c tok (List.getElem?_mem hi)
  simp only [Int.toNat_ofNat] at hlast ⊢
  refine ⟨by omega, fun h => ?_, fun h => ?_⟩
  · have hlt : c + bl < b.length := by omega
    rw [if_pos hlt]
    exact charAt_getElem? b _ hlt
  · have hnlt : ¬ c + bl < b.length := by omega
    rw [if_neg hnlt]
    exact ⟨rfl, hlast (by omega)⟩

/-- C6 (as amended): the length `L` of the token emitted at cursor `c` is the
maximum, over the candidate starts `s` in `[max(0, c - 1024), c)`, of the number
of agreeing bytes counted only up to the cursor, `min(lce(s, c), c - s)` (and
`0` without a candidate): the comparison stops when `s + k` reaches `c`.  On
ten bytes `'a'` the tokens are `(0,0,'a') (1,1,'a') (3,3,'a') (7,3,0x00)`. -/
theorem compress_length_longest_capped :
    (∀ b : List Byte, ∃ tr, compressTrace b = some tr ∧ compress b = some (tr.map Prod.snd) ∧
      ∀ c tok, (c, tok) ∈ tr → ∃ L : Nat, tok.length = (L : Int) ∧
        (∀ s n, c - 1024 ≤ s → s < c → MatchesAt b s c n → min n (c - s) ≤ L) ∧
        (L = 0 ∨ ∃ s, c - 1024 ≤ s ∧ s < c ∧ L ≤ c - s ∧ MatchesAt b s c L)) ∧
    compressTrace (List.replicate 10 97) =
      some [(0, { offset := 0, length := 0, nextChar := 97 }),
            (1, { offset := 1, length := 1, nextChar := 97 }),
            (3, { offset := 3, length := 3, nextChar := 97 }),
            (7, { offset := 7, length := 3, nextChar := 0 })] := by
  refine ⟨fun b => ?_, by decide⟩
  obtain ⟨tr, htr, his⟩ := compressTrace_isTrace b
  refine ⟨tr, htr, by simp [compress, htr], fun c tok hmem => ?_⟩
  obtain ⟨bo, bl, hb, hle, hc, rfl⟩ := isTrace_token b tr 0 his c tok hmem
  refine ⟨bl, rfl, fun s n h1 h2 hm => ?_, ?_⟩
  · exact hb.longest s (min n (c - s)) h1 h2 (Nat.min_le_right _ _)
      (hm.mono (Nat.min_le_left _ _))
  · by_cases h0 : 0 < bl
    · obtain ⟨a1, a2, a3, a4, a5, a6⟩ := hb.found h0
      exact Or.inr ⟨c - bo, a3, a4, by omega, a6⟩
    · exact Or.inl (by omega)

/-- C6 (counterexample): on ten bytes `'a'` the token emitted at cursor 1 is
`(1, 1, 'a')`, although the candidate `s = 0` agrees with the cursor on nine
bytes; the back-reference `(1, 9)` is not emitted. -/
theorem compress_match_not_past_cursor :
    ∃ tr, compressTrace (List.replicate 10 97) = some tr ∧
      (1, ({ offset := 1, length := 1, nextChar := 97 } : LZ77Token)) ∈ tr ∧
      (∀ tok, (1, tok) ∈ tr → tok.length ≠ 9) ∧
      searchStart 1 ≤ 0 ∧ MatchesAt (List.replicate 10 97) 0 1 9 := by
  refine ⟨_, (by decide : compressTrace (List.replicate 10 97) =
      some [(0, { offset := 0, length := 0, nextChar := 97 }),
            (1, { offset := 1, length := 1, nextChar := 97 }),
            (3, { offset := 3, length := 3, nextChar := 97 }),
            (7, { offset := 7, length := 3, nextChar := 0 })]), by decide, ?_, by decide, by decide⟩
  intro tok h
  simp only [List.mem_cons, Prod.mk.injEq, List.not_mem_nil, or_false] at h
  rcases h with h | h | h | h
  · exact absurd h.1 (by decide)
  · rw [h.2]; decide
  · exact absurd h.1 (by decide)
  · exact absurd h.1 (by decide)

/-- C7: if the token emitted at cursor `c` has length `L > 0` and offset `o`, no
candidate `s` with `max(0, c - 1024) ≤ s < c - o` agrees with the cursor on `L`
or more bytes: among the candidates that reach the chosen length the first one
scanned (largest offset) wins.  `"aXaYa"` ends with the token `(4, 1, 0x00)`. -/
theorem compress_tie_break :
    (∀ b : List Byte, ∃ tr, compressTrace b = some tr ∧ compress b = some (tr.map Prod.snd) ∧
      ∀ c tok, (c, tok) ∈ tr → 0 < tok.length →
        ∀ s n : Nat, c - 1024 ≤ s → (s : Int) < (c : Int) - tok.offset → tok.length ≤ (n : Int) →
          ¬ MatchesAt b s c n) ∧
    compress [97, 88, 97, 89, 97] =
      some [{ offset := 0, length := 0, nextChar := 97 },
            { offset := 0, length := 0, nextChar := 88 },
            { offset := 2, length := 1, nextChar := 89 },
            { offset := 4, length := 1, nextChar := 0 }] := by
  refine ⟨fun b => ?_, by decide⟩
  obtain ⟨tr, htr, his⟩ := compressTrace_isTrace b
  refine ⟨tr, htr, by simp [compress, htr], fun c tok hmem hpos s n h1 h2 h3 hm => ?_⟩
  obtain ⟨bo, bl, hb, hle, hc, rfl⟩ := isTrace_token b tr 0 his c tok hmem
  simp only [Int.natCast_pos] at hpos
  simp only [Nat.cast_le] at h3
  dsimp only at h2
  obtain ⟨a1, a2, a3, a4, a5, a6⟩ := hb.found hpos
  have := hb.earliest hpos s bl h1 (by omega) (by omega) (hm.mono h3)
  omega

/-- C8 (as amended): `decompress` checks no offset and has no failed result.  A
token whose offset exceeds the current output length is replayed like any
other: with `length ≤ 0` nothing is read and the output grows by the literal
(unless it is `0x00`); with `length > 0` the first copy step indexes the output
at `len(out) - offset < 0`, outside the buffer, where the source has no defined
behaviour and the model no result. -/
theorem decompressStep_offset_beyond_output (out : List Byte) (tok : LZ77Token)
    (h : (out.length : Int) < tok.offset) :
    (tok.length ≤ 0 →
      decompressStep out tok = some (out ++ (if tok.nextChar ≠ 0 then [tok.nextChar] else []))) ∧
    (0 < tok.length →
      (out.length : Int) - tok.offset < 0 ∧
      readAt out ((out.length : Int) - tok.offset) = none ∧ decompressStep out tok = none) := by
  have hread : readAt out ((out.length : Int) - tok.offset) = none := by
    unfold readAt
    rw [if_neg (by omega), if_neg (by omega)]
  constructor
  · intro hL
    have e : tok.length.toNat = 0 := by omega
    unfold decompressStep
    simp only [e, copyLoop]
    split <;> simp
  · intro hL
    refine ⟨by omega, hread, ?_⟩
    obtain ⟨n, hn⟩ : ∃ n, tok.length.toNat = n + 1 := ⟨tok.length.toNat - 1, by omega⟩
    unfold decompressStep
    simp only [hn, copyLoop, Nat.cast_zero, add_zero, hread]

/-- C8 (witness): on the empty output, the token `(5, 0, 'a')` is replayed as a
literal and the token `(1, 1, 'a')` reads index `-1`. -/
theorem decompressStep_offset_beyond_output_witness :
    ((([] : List Byte).length : Int) < 5 ∧ (([] : List Byte).length : Int) < 1) ∧
      decompressStep [] { offset := 5, length := 0, nextChar := 97 } = some [97] ∧
      readAt [] (-1) = none ∧
      decompressStep [] { offset := 1, length := 1, nextChar := 97 } = none :=
  ⟨by decide,
    ((decompressStep_offset_beyond_output [] { offset := 5, length := 0, nextChar := 97 }
      (by decide)).1 (by decide)).trans (by decide),
    ((decompressStep_offset_beyond_output [] { offset := 1, length := 1, nextChar := 97 }
      (by decide)).2 (by decide)).2.1,
    ((decompressStep_offset_beyond_output [] { offset := 1, length := 1, nextChar := 97 }
      (by decide)).2 (by decide)).2.2⟩

/-- C8 (counterexample): the sequences `[(5, 0, 'a')]` and
`[(0, 0, 'a'), (2, 0, 'b')]` hold a token whose offset exceeds the output length
at its turn, and `decompress` returns an output for both. -/
theorem decompress_accepts_offset_beyond_output :
    decompress [{ offset := 5, length := 0, nextChar := 97 }] = some [97] ∧
      decompress [{ offset := 0, length := 0, nextChar := 97 },
        { offset := 2, length := 0, nextChar := 98 }] = some [97, 98] := by
  decide

/-- C9: for every `n` and every non-zero byte `c`, `decompress (compress r)` is
`r` for the run `r` of `n` copies of `c`. -/
theorem roundtrip_run (n : Nat) (c : Byte) (hc : c ≠ 0) :
    (compress (List.replicate n c)).bind decompress = some (List.replicate n c) := by
  apply roundtrip_of_no_zero
  intro hmem
  exact hc (List.eq_of_mem_replicate hmem).symm

/-- C9 (witness): the run of 2000 bytes `'a'`, longer than the window, and the
run of 10 bytes `'a'`. -/
theorem roundtrip_run_witness :
    (97 : Byte) ≠ 0 ∧
      (compress (List.replicate 2000 97)).bind decompress = some (List.replicate 2000 97) ∧
      (compress (List.replicate 10 97)).bind decompress = some (List.replicate 10 97) :=
  ⟨by decide, roundtrip_run 2000 97 (by decide), roundtrip_run 10 97 (by decide)⟩

/-- C10: `compress` terminates on every buffer: the loop leaves through its own
condition with the fuel `len(b)`, and with any larger fuel it returns the same
run.  The run starts at cursor 0, every iteration moves the cursor by
`length + 1 ≥ 1`, and at most `len(b)` tokens are returned. -/
theorem compress_terminates (b : List Byte) :
    ∃ tr, compressTrace b = some tr ∧ compress b = some (tr.map Prod.snd) ∧
      (∀ fuel, b.length ≤ fuel → compressLoop b fuel 0 = some tr) ∧
      (tr.map Prod.snd).length ≤ b.length ∧
      (∀ p, tr[0]? = some p → p.1 = 0) ∧
      (∀ p, p ∈ tr → 0 ≤ p.2.length ∧ p.1 < p.1 + p.2.length.toNat + 1) ∧
      (∀ i p q, tr[i]? = some p → tr[i + 1]? = some q →
        q.1 = p.1 + p.2.length.toNat + 1 ∧ p.1 < q.1) := by
  obtain ⟨tr, htr, his⟩ := compressTrace_isTrace b
  refine ⟨tr, htr, by simp [compress, htr], fun fuel hf => ?_, ?_, ?_, fun p hp => ?_,
    fun i p q hp hq => ?_⟩
  · obtain ⟨tr2, h2, his2⟩ := compressLoop_isTrace b fuel 0 (by omega)
    rw [h2, isTrace_unique b tr2 tr 0 his2 his]
  · have := isTrace_length b tr 0 his
    simp only [List.length_map]
    omega
  · exact fun p hp => isTrace_head b tr 0 his p hp
  · obtain ⟨bo, bl, _, _, _, htok⟩ := isTrace_token b tr 0 his p.1 p.2 hp
    rw [htok]
    exact ⟨by simp, by omega⟩
  · have := isTrace_next b tr 0 i his p q hp hq
    omega

/-! ## Further properties of the encoder -/

theorem lceFrom_spec (text : List Byte) (s c : Nat) :
    ∀ (fuel k : Nat), MatchesAt text s c k → text.length ≤ c + k + fuel →
      MatchesAt text s c (lceFrom text s c fuel k) ∧
        ¬ MatchesAt text s c (lceFrom text s c fuel k + 1) := by
  intro fuel
  induction fuel with
  | zero =>
    intro k hk hlen
    refine ⟨hk, fun h => ?_⟩
    have := h.1
    simp only [lceFrom] at this
    omega
  | succ fuel ih =>
    intro k hk hlen
    unfold lceFrom
    by_cases hcond : c + k < text.length ∧ charAt text (s + k) = charAt text (c + k)
    · rw [if_pos hcond]
      apply ih (k + 1) _ (by omega)
      refine ⟨by omega, fun j hj => ?_⟩
      by_cases hjk : j < k
      · exact hk.2 j hjk
      · have : j = k := by omega
        subst this
        exact hcond.2
    · rw [if_neg hcond]
      refine ⟨hk, fun h => hcond ⟨?_, h.2 k (by omega)⟩⟩
      have := h.1
      omega

/-- Candidate `s` agrees with the cursor on `n` bytes exactly when `n ≤ lce(s, c)`. -/
theorem matchesAt_iff_le_lce (text : List Byte) (s c n : Nat) (hc : c ≤ text.length) :
    MatchesAt text s c n ↔ n ≤ lce text s c := by
  obtain ⟨h1, h2⟩ := lceFrom_spec text s c text.length 0 (matchesAt_zero hc) (by omega)
  constructor
  · intro h
    by_contra hlt
    unfold lce at hlt
    exact h2 (h.mono (by omega))
  · intro h
    exact h1.mono h

/-- Replaying the token of cursor `c` on the first `c` bytes of a text without
the byte `0x00` yields the bytes up to the next cursor. -/
theorem decompressStep_next (text : List Byte) (hz : (0 : Byte) ∉ text) (c : Nat)
    (tok : LZ77Token) (hc : c < text.length) (htok : tokenAt text c = some tok) :
    decompressStep (text.take c) tok = some (text.take (c + tok.length.toNat + 1)) := by
  obtain ⟨bo, bl, hb, hle, hspec⟩ := tokenAt_spec text c hc
  rw [hspec] at htok
  rw [← Option.some.inj htok, decompressStep_token text c bo bl hc hb]
  simp only [Int.toNat_ofNat]
  by_cases hlt : c + bl < text.length
  · simp only [hlt, if_true, charAt_ne_zero text hz _ hlt, ne_eq, not_false_eq_true]
    rw [take_succ_charAt text _ hlt]
  · simp only [hlt, if_false, ne_eq, not_true_eq_false, List.append_nil]
    rw [List.take_of_length_le (by omega), List.take_of_length_le (by omega)]

/-- The replay of the first `i` tokens of a run from cursor `c`, started on the
first `c` bytes, stops on the bytes before the cursor of the `i`-th token. -/
theorem decompressLoop_take (text : List Byte) (hz : (0 : Byte) ∉ text) :
    ∀ (tr : List (Nat × LZ77Token)) (c i : Nat), IsTrace text c tr →
      ∀ p, tr[i]? = some p →
        decompressLoop ((tr.take i).map Prod.snd) (text.take c) = some (text.take p.1) := by
  intro tr
  induction tr with
  | nil => intro c i _ p hp; simp at hp
  | cons a rest ih =>
    intro c i h p hp
    obtain ⟨h1, h2, h3, h4⟩ := h
    cases i with
    | zero =>
      simp at hp
      subst hp
      simp [decompressLoop, h1]
    | succ i =>
      simp only [List.getElem?_cons_succ] at hp
      simp only [List.take_succ_cons, List.map_cons, decompressLoop]
      rw [decompressStep_next text hz c a.2 h2 h3]
      exact ih _ i h4 p hp

theorem isTrace_nodup (text : List Byte) (hn : text.Nodup) :
    ∀ (tr : List (Nat × LZ77Token)) (c : Nat), IsTrace text c tr →
      tr.map Prod.snd =
        (text.drop c).map (fun x => ({ offset := 0, length := 0, nextChar := x } : LZ77Token)) := by
  intro tr
  induction tr with
  | nil =>
    intro c h
    simp only [IsTrace] at h
    simp [List.drop_eq_nil_of_le h]
  | cons p rest ih =>
    intro c h
    obtain ⟨_, h2, h3, h4⟩ := h
    obtain ⟨bo, bl, hb, hle, hspec⟩ := tokenAt_spec text c h2
    rw [hspec] at h3
    have hp := (Option.some.inj h3).symm
    have hbl : bl = 0 := by
      by_contra hne
      obtain ⟨a1, a2, _, _, _, a6⟩ := hb.found (by omega)
      have e := a6.2 0 (by omega)
      simp only [Nat.add_zero, charAt] at e
      rw [List.getD_eq_getElem _ _ (by omega : c - bo < text.length),
        List.getD_eq_getElem _ _ h2] at e
      have := (List.Nodup.getElem_inj_iff hn).1 e
      omega
    subst hbl
    have hbo : bo = 0 := hb.zero rfl
    subst hbo
    rw [hp] at h4
    simp only [Int.toNat_ofNat, Nat.cast_zero, Int.toNat_zero, Nat.add_zero] at h4
    rw [List.drop_eq_getElem_cons h2, List.map_cons, List.map_cons, ih _ h4, hp]
    simp [h2, charAt, List.getD, List.getElem?_eq_getElem h2]

/-! ## The claims on literal tokens, the sentinel and the capped match -/

/-- C11: the token emitted at cursor `c` is literal-only (`offset = 0` and
`length = 0`) exactly when the byte `b[c]` occurs at no position `s` of
`[max(0, c - 1024), c)`; otherwise both its offset and its length are at
least 1. -/
theorem compress_literal_only_iff (b : List Byte) :
    ∃ tr, compressTrace b = some tr ∧ compress b = some (tr.map Prod.snd) ∧
      ∀ c tok, (c, tok) ∈ tr →
        ((tok.offset = 0 ∧ tok.length = 0) ↔
          ∀ s, c - 1024 ≤ s → s < c → b[s]? ≠ b[c]?) ∧
        (¬ (tok.offset = 0 ∧ tok.length = 0) → 1 ≤ tok.offset ∧ 1 ≤ tok.length) := by
  obtain ⟨tr, htr, his⟩ := compressTrace_isTrace b
  refine ⟨tr, htr, by simp [compress, htr], fun c tok hmem => ?_⟩
  obtain ⟨bo, bl, hb, hle, hc, rfl⟩ := isTrace_token b tr 0 his c tok hmem
  dsimp only
  have hz := hb.zero
  have hf := hb.found
  refine ⟨⟨fun h s h1 h2 e => ?_, fun h => ?_⟩, fun h => ?_⟩
  · have hm : MatchesAt b s c 1 := by
      refine ⟨by omega, fun k hk => ?_⟩
      have hk0 : k = 0 := by omega
      subst hk0
      rw [charAt_getElem? b s (by omega), charAt_getElem? b c hc] at e
      simpa using e
    have := hb.longest s 1 h1 h2 (by omega) hm
    omega
  · by_cases h0 : 0 < bl
    · exfalso
      obtain ⟨a1, a2, a3, a4, _, a6⟩ := hf h0
      apply h (c - bo) a3 a4
      have e := a6.2 0 h0
      simp only [Nat.add_zero] at e
      rw [charAt_getElem? b _ (by omega), charAt_getElem? b c hc, e]
    · have := hz (by omega)
      omega
  · by_cases h0 : 0 < bl
    · have := hf h0
      omega
    · exfalso
      have := hz (by omega)
      apply h
      omega

/-- C12: on a buffer in which no byte value occurs twice, `compress` returns
exactly `len(b)` tokens, the `i`-th being `(0, 0, b[i])`. -/
theorem compress_no_repeat (b : List Byte) (h : b.Nodup) :
    compress b =
        some (b.map (fun x => ({ offset := 0, length := 0, nextChar := x } : LZ77Token))) ∧
      ∃ ts, compress b = some ts ∧ ts.length = b.length ∧
        ∀ i, i < b.length →
          ts[i]? = (b[i]?).map (fun x => { offset := 0, length := 0, nextChar := x }) := by
  obtain ⟨tr, htr, his⟩ := compressTrace_isTrace b
  have e := isTrace_nodup b h tr 0 his
  simp only [List.drop_zero] at e
  have hc : compress b =
      some (b.map (fun x => ({ offset := 0, length := 0, nextChar := x } : LZ77Token))) := by
    simp only [compress, htr, Option.map_some', e]
  refine ⟨hc, _, hc, by simp, fun i _ => by simp⟩

/-- C12 (witness): the buffer `"a\0b"` gives `(0,0,'a') (0,0,0x00) (0,0,'b')`. -/
theorem compress_no_repeat_witness :
    ([97, 0, 98] : List Byte).Nodup ∧
      compress [97, 0, 98] =
        some [{ offset := 0, length := 0, nextChar := 97 },
              { offset := 0, length := 0, nextChar := 0 },
              { offset := 0, length := 0, nextChar := 98 }] :=
  ⟨by decide, (compress_no_repeat [97, 0, 98] (by decide)).1⟩

/-- C13: `compress` of the zero-length buffer returns the empty token sequence,
and `decompress` of the empty token sequence returns the empty buffer. -/
theorem compress_decompress_empty :
    compress [] = some [] ∧ decompress [] = some [] := by
  decide

/-- C15: a token whose literal is a genuine `0x00` byte equals the token without
a literal: `"aa"` and `"aa"` followed by `0x00` are distinct buffers with the
same token sequence `(0,0,'a') (1,1,0x00)`, so `compress` is not injective. -/
theorem compress_sentinel_ambiguity :
    compress [97, 97] = some [{ offset := 0, length := 0, nextChar := 97 },
                              { offset := 1, length := 1, nextChar := 0 }] ∧
      compress [97, 97, 0] = some [{ offset := 0, length := 0, nextChar := 97 },
                                   { offset := 1, length := 1, nextChar := 0 }] ∧
      ([97, 97] : List Byte) ≠ [97, 97, 0] ∧
      ¬ Function.Injective compress := by
  have h1 : compress [97, 97] = some [{ offset := 0, length := 0, nextChar := 97 },
      { offset := 1, length := 1, nextChar := 0 }] := by decide
  have h2 : compress [97, 97, 0] = some [{ offset := 0, length := 0, nextChar := 97 },
      { offset := 1, length := 1, nextChar := 0 }] := by decide
  have h3 : ([97, 97] : List Byte) ≠ [97, 97, 0] := by decide
  exact ⟨h1, h2, h3, fun hinj => h3 (hinj (h1.trans h2.symm))⟩

/-- C16: on a buffer without the byte `0x00`, `decompress (compress b)` is `b`,
and at every token of the replay the output so far is the first `c` bytes of
`b`, `c` being the cursor at which the encoder emitted the token; the offset is
at most that output length (and at least 1 when bytes are copied), so every
read of the replay lies inside the output. -/
theorem roundtrip_no_zero_in_bounds (b : List Byte) (hz : (0 : Byte) ∉ b) :
    ∃ tr, compressTrace b = some tr ∧ compress b = some (tr.map Prod.snd) ∧
      decompress (tr.map Prod.snd) = some b ∧
      ∀ (i c : Nat) (tok : LZ77Token), tr[i]? = some (c, tok) →
        ∃ out, decompressLoop ((tr.take i).map Prod.snd) [] = some out ∧
          out = b.take c ∧ out.length = c ∧
          0 ≤ tok.offset ∧ tok.offset ≤ (out.length : Int) ∧
          (0 < tok.length → 1 ≤ tok.offset) := by
  obtain ⟨tr, htr, his⟩ := compressTrace_isTrace b
  refine ⟨tr, htr, by simp [compress, htr], ?_, fun i c tok hi => ?_⟩
  · simpa [decompress] using decompressLoop_isTrace b hz tr 0 his
  · have hpre := decompressLoop_take b hz tr 0 i his (c, tok) hi
    simp only [List.take_zero] at hpre
    obtain ⟨bo, bl, hb, hle, hc, rfl⟩ := isTrace_token b tr 0 his c tok (List.getElem?_mem hi)
    have hlen : (b.take c).length = c := by simp; omega
    refine ⟨b.take c, hpre, rfl, hlen, ?_⟩
    dsimp only
    rw [hlen]
    have hzero := hb.zero
    have hf := hb.found
    refine ⟨by omega, ?_, fun h => ?_⟩
    · by_cases h0 : 0 < bl
      · have := hf h0
        omega
      · have := hzero (by omega)
        omega
    · have := hf (by omega)
      omega

/-- C16 (witness): the buffer `"abababab"`. -/
theorem roundtrip_no_zero_in_bounds_witness :
    (0 : Byte) ∉ ([97, 98, 97, 98, 97, 98, 97, 98] : List Byte) ∧
      ∃ tr, compressTrace [97, 98, 97, 98, 97, 98, 97, 98] = some tr ∧
        decompress (tr.map Prod.snd) = some [97, 98, 97, 98, 97, 98, 97, 98] := by
  obtain ⟨tr, h1, _, h3, _⟩ :=
    roundtrip_no_zero_in_bounds [97, 98, 97, 98, 97, 98, 97, 98] (by decide)
  exact ⟨by decide, tr, h1, h3⟩

/-- C17: the length of the token emitted at cursor `c` is the maximum over the
candidates `s` of `[max(0, c - 1024), c)` of `min(lce(s, c), c - s)` (`0` without
a candidate); hence every emitted token has `length ≤ offset`: the encoder emits
no self-overlapping back-reference. -/
theorem compress_length_capped_at_cursor (b : List Byte) :
    ∃ tr, compressTrace b = some tr ∧ compress b = some (tr.map Prod.snd) ∧
      ∀ c tok, (c, tok) ∈ tr →
        tok.length =
          (((Finset.Ico (c - 1024) c).sup (fun s => min (lce b s c) (c - s)) : Nat) : Int) ∧
        tok.length ≤ tok.offset := by
  obtain ⟨tr, htr, his⟩ := compressTrace_isTrace b
  refine ⟨tr, htr, by simp [compress, htr], fun c tok hmem => ?_⟩
  obtain ⟨bo, bl, hb, hle, hc, rfl⟩ := isTrace_token b tr 0 his c tok hmem
  dsimp only
  have hzero := hb.zero
  have hf := hb.found
  have key : bl = (Finset.Ico (c - 1024) c).sup (fun s => min (lce b s c) (c - s)) := by
    apply le_antisymm
    · by_cases h0 : 0 < bl
      · obtain ⟨a1, a2, a3, a4, a5, a6⟩ := hf h0
        have hl := (matchesAt_iff_le_lce b (c - bo) c bl (by omega)).1 a6
        have hmem : c - bo ∈ Finset.Ico (c - 1024) c := Finset.mem_Ico.2 ⟨a3, a4⟩
        refine le_trans ?_ (Finset.le_sup hmem)
        exact le_min hl (by omega)
      · omega
    · apply Finset.sup_le
      intro s hs
      obtain ⟨h1, h2⟩ := Finset.mem_Ico.1 hs
      exact hb.longest s _ h1 h2 (Nat.min_le_right _ _)
        ((matchesAt_iff_le_lce b s c _ (by omega)).2 (Nat.min_le_left _ _))
  constructor
  · rw [← key]
  · by_cases h0 : 0 < bl
    · have := hf h0
      omega
    · have := hzero (by omega)
      omega

end LZ77

/-! ## The artifact -/

namespace L7ZZ

theorem toBytes_length : ∀ (w v : Nat), (toBytes w v).length = w := by
  intro w
  induction w with
  | zero => intro v; rfl
  | succ w ih => intro v; simp [toBytes, ih]

theorem ofBytes_toBytes : ∀ (w v : Nat), v < 256 ^ w → ofBytes (toBytes w v) = v := by
  intro w
  induction w with
  | zero => intro v h; simp at h; simp [toBytes, ofBytes, h]
  | succ w ih =>
    intro v h
    have h2 : v / 256 < 256 ^ w := by
      rw [Nat.div_lt_iff_lt_mul (by decide)]
      rw [pow_succ] at h
      exact h
    simp only [toBytes, ofBytes, ih _ h2, Fin.ofNat, Nat.succ_eq_add_one]
    omega

theorem intOfBytes_intBytes (x : Int) (h1 : -2147483648 ≤ x) (h2 : x < 2147483648) :
    intOfBytes (intBytes x) = x := by
  unfold intOfBytes intBytes
  rw [ofBytes_toBytes 4 _ (by norm_num; omega)]
  split <;> omega

theorem sizeBytes_value (n : Nat) (h : n < 18446744073709551616) :
    ofBytes (sizeBytes n) = n := by
  unfold sizeBytes
  rw [ofBytes_toBytes 8 _ (by norm_num; omega)]
  omega

theorem tokenBytes_length (t : LZ77Token) : (tokenBytes t).length = 9 := by
  have l1 : (intBytes t.offset).length = 4 := toBytes_length 4 _
  have l2 : (intBytes t.length).length = 4 := toBytes_length 4 _
  simp [tokenBytes, l1, l2]

theorem readToken_encoded (t : LZ77Token) (rest : List Byte)
    (h1 : -2147483648 ≤ t.offset ∧ t.offset < 2147483648)
    (h2 : -2147483648 ≤ t.length ∧ t.length < 2147483648) :
    readToken { data := tokenBytes t ++ rest, good := true } =
      (t, { data := rest, good := true }) := by
  have l1 : (intBytes t.offset).length = 4 := toBytes_length 4 _
  have l2 : (intBytes t.length).length = 4 := toBytes_length 4 _
  simp only [tokenBytes, readToken, InFile.read, InFile.get, List.append_assoc, if_true,
    List.length_append, l1, l2, List.length_cons, List.length_nil]
  simp [l1, l2, List.take_append_of_le_length, List.drop_append_of_le_length,
    intOfBytes_intBytes _ h1.1 h1.2, intOfBytes_intBytes _ h2.1 h2.2]

theorem readTokens_encoded :
    ∀ (ts : List LZ77Token) (rest : List Byte),
      (∀ t, t ∈ ts → (-2147483648 ≤ t.offset ∧ t.offset < 2147483648) ∧
        (-2147483648 ≤ t.length ∧ t.length < 2147483648)) →
      readTokens ts.length { data := ts.flatMap tokenBytes ++ rest, good := true } = ts := by
  intro ts
  induction ts with
  | nil => intro rest _; rfl
  | cons t ts ih =>
    intro rest h
    have ht := h t (List.mem_cons_self _ _)
    simp only [List.flatMap_cons, List.length_cons, readTokens, List.append_assoc]
    rw [readToken_encoded t _ ht.1 ht.2]
    simp only
    rw [ih rest (fun u hu => h u (List.mem_cons_of_mem _ hu))]

theorem load_save (ts : List LZ77Token) (hn : ts.length < 18446744073709551616)
    (h : ∀ t, t ∈ ts → (-2147483648 ≤ t.offset ∧ t.offset < 2147483648) ∧
      (-2147483648 ≤ t.length ∧ t.length < 2147483648)) :
    loadCompressedFile (saveCompressedFile ts) = some ts := by
  have l8 : (sizeBytes ts.length).length = 8 := toBytes_length 8 _
  unfold loadCompressedFile saveCompressedFile
  rw [if_neg (by simp [l8])]
  rw [List.take_append_of_le_length (by omega), List.drop_append_of_le_length (by omega)]
  rw [← l8, List.take_length, List.drop_length, sizeBytes_value _ hn]
  have := readTokens_encoded ts [] h
  simp only [List.append_nil] at this
  simp only [List.nil_append, this]

theorem flatMap_tokenBytes_length (ts : List LZ77Token) :
    (ts.flatMap tokenBytes).length = 9 * ts.length := by
  induction ts with
  | nil => rfl
  | cons t ts ih =>
    simp only [List.flatMap_cons, List.length_append, tokenBytes_length, List.length_cons, ih]
    omega

theorem save_length (ts : List LZ77Token) :
    (saveCompressedFile ts).length = 8 + 9 * ts.length := by
  have l8 : (sizeBytes ts.length).length = 8 := toBytes_length 8 _
  unfold saveCompressedFile
  rw [List.length_append, l8, flatMap_tokenBytes_length]

/-- C14: for a token sequence whose offsets and lengths are 32-bit signed
integers, `saveCompressedFile` writes an 8-byte count and 9 bytes per token
(4-byte offset, 4-byte length, 1-byte literal), and `loadCompressedFile` reads
back from these bytes the same tokens, field for field. -/
theorem artifact_roundtrip (ts : List LZ77Token) (hn : ts.length < 18446744073709551616)
    (h : ∀ t, t ∈ ts → (-2147483648 ≤ t.offset ∧ t.offset < 2147483648) ∧
      (-2147483648 ≤ t.length ∧ t.length < 2147483648)) :
    loadCompressedFile (saveCompressedFile ts) = some ts ∧
      (saveCompressedFile ts).length = 8 + 9 * ts.length ∧
      (saveCompressedFile ts).take 8 = sizeBytes ts.length ∧
      (saveCompressedFile ts).drop 8 = ts.flatMap tokenBytes ∧
      ∀ t, t ∈ ts → (intBytes t.offset).length = 4 ∧ (intBytes t.length).length = 4 ∧
        intOfBytes (intBytes t.offset) = t.offset ∧ intOfBytes (intBytes t.length) = t.length := by
  have l8 : (sizeBytes ts.length).length = 8 := toBytes_length 8 _
  refine ⟨load_save ts hn h, save_length ts, ?_, ?_, fun t ht => ?_⟩
  · unfold saveCompressedFile
    rw [List.take_append_of_le_length (by omega), ← l8, List.take_length]
  · unfold saveCompressedFile
    rw [List.drop_append_of_le_length (by omega), ← l8, List.drop_length, List.nil_append]
  · have := h t ht
    exact ⟨toBytes_length 4 _, toBytes_length 4 _, intOfBytes_intBytes _ this.1.1 this.1.2,
      intOfBytes_intBytes _ this.2.1 this.2.2⟩

/-- C14 (witness): the tokens `(-1, 3, 'a')` and `(1024, 0, 0x00)` are written as
26 bytes and read back unchanged. -/
theorem artifact_roundtrip_witness :
    saveCompressedFile [{ offset := -1, length := 3, nextChar := 97 },
        { offset := 1024, length := 0, nextChar := 0 }] =
      [2, 0, 0, 0, 0, 0, 0, 0, 255, 255, 255, 255, 3, 0, 0, 0, 97, 0, 4, 0, 0, 0, 0, 0, 0, 0] ∧
    loadCompressedFile (saveCompressedFile [{ offset := -1, length := 3, nextChar := 97 },
        { offset := 1024, length := 0, nextChar := 0 }]) =
      some [{ offset := -1, length := 3, nextChar := 97 },
        { offset := 1024, length := 0, nextChar := 0 }] :=
  ⟨by decide,
    (artifact_roundtrip [{ offset := -1, length := 3, nextChar := 97 },
        { offset := 1024, length := 0, nextChar := 0 }] (by decide) (by decide)).1⟩

end L7ZZ

/-! ## The dictionary coder -/

namespace LZWCompression

theorem initialDictionary_eq_some (k : List Byte) (v : Int)
    (h : initialDictionary k = some v) : ∃ b : Byte, k = [b] ∧ v = (b.val : Int) := by
  match k, h with
  | [b], h =>
    simp only [initialDictionary, Option.some.injEq] at h
    exact ⟨b, rfl, h.symm⟩

theorem initialTable_iff (k : List Byte) (v : Int) :
    initialTable v = some k ↔ initialDictionary k = some v := by
  constructor
  · intro h
    unfold initialTable at h
    split at h
    · rename_i hv
      simp only [Option.some.injEq] at h
      subst h
      simp only [initialDictionary, Fin.ofNat, Option.some.injEq]
      omega
    · simp at h
  · intro h
    obtain ⟨b, rfl, rfl⟩ := initialDictionary_eq_some k v h
    have hb := b.isLt
    unfold initialTable
    rw [if_pos ⟨by omega, by omega⟩]
    simp only [Option.some.injEq, List.cons.injEq, and_true]
    apply Fin.ext
    simp only [Fin.ofNat, Int.toNat_ofNat]
    omega

theorem decompressLoop_append (xs : List Int) (c : Int) :
    ∀ (st ds : DecompressState), decompressLoop xs st = .ok ds →
      decompressLoop (xs ++ [c]) st = decompressStep ds c := by
  induction xs with
  | nil =>
    intro st ds h
    simp only [decompressLoop, Except.ok.injEq] at h
    subst h
    simp only [List.nil_append, decompressLoop]
    cases decompressStep st c <;> rfl
  | cons x xs ih =>
    intro st ds h
    simp only [List.cons_append, decompressLoop] at h ⊢
    cases hx : decompressStep st x with
    | error e => rw [hx] at h; simp at h
    | ok next =>
      rw [hx] at h
      exact ih next ds h

theorem decompressRun_append (xs : List Int) (c : Int) (ds : DecompressState)
    (h : decompressRun xs = .ok ds) : decompressRun (xs ++ [c]) = decompressStep ds c := by
  cases xs with
  | nil => simp [decompressRun] at h
  | cons x xs =>
    simp only [decompressRun, List.cons_append] at h ⊢
    exact decompressLoop_append xs c _ ds h

/-- Decoding the code of the encoder's current string: the decoder appends that
string, and its table becomes the inverse of the encoder's dictionary. -/
theorem decode_emitted (t : List Byte) (st : CompressState) (hs : Sync t st) (v : Int)
    (hv : st.dictionary st.current = some v) :
    ∃ ds, decompressRun (st.compressed ++ [v]) = .ok ds ∧ ds.decompressed = t ∧
      ds.current = st.current ∧ ds.code = st.code ∧
      ∀ k w, ds.dictionary w = some k ↔ st.dictionary k = some w := by
  rcases hs.decoded with ⟨h1, h2, h3, h4⟩ | ⟨ds, h1, h2, h3, h4, h5, h6⟩
  · rw [h3] at hv
    obtain ⟨b, hb, rfl⟩ := initialDictionary_eq_some _ _ hv
    have htab : initialTable (b.val : Int) = some [b] := (initialTable_iff _ _).2 (by rfl)
    refine ⟨decompressInit (b.val : Int), by rw [h1]; rfl, ?_, ?_, ?_, ?_⟩
    · simp only [decompressInit, htab]; rw [← h2, hb]
    · simp only [decompressInit, htab]; rw [hb]
    · simp only [decompressInit, htab]; rw [h4]
    · intro k w
      simp only [decompressInit, htab]
      rw [h3]
      exact initialTable_iff k w
  · rw [decompressRun_append _ _ ds h1]
    have hentry : decompressStep ds v = .ok (decompressNext ds st.current) := by
      unfold decompressStep
      by_cases hvc : v = ds.code
      · have hnone : ds.dictionary v = none := by
          cases hd : ds.dictionary v with
          | none => rfl
          | some k => exact absurd hvc ((h6 k v).1 hd).2
        rw [hnone]
        simp only [hvc, if_true]
        have hk := hs.inj _ _ _ hv (hvc ▸ h5)
        have hhead : st.current.headD 0 = ds.current.headD 0 := by
          cases hc : ds.current with
          | nil => exact absurd hc h4
          | cons a l =>
            rw [hc] at hk
            rw [hk]
            rfl
        rw [← hhead, ← hk]
      · rw [(h6 st.current v).2 ⟨hv, hvc⟩]
    refine ⟨decompressNext ds st.current, hentry, h2, rfl, h3, fun k w => ?_⟩
    simp only [decompressNext, insertCode]
    by_cases hw : w = ds.code
    · rw [if_pos hw]
      constructor
      · intro h
        simp only [Option.some.injEq] at h
        rw [← h, hw]
        exact h5
      · intro h
        rw [hs.inj _ _ _ h (hw ▸ h5)]
    · rw [if_neg hw]
      constructor
      · intro h
        exact ((h6 k w).1 h).1
      · intro h
        exact (h6 k w).2 ⟨h, hw⟩

theorem sync_init (c : Byte) : Sync [c] (compressStep compressInit c) := by
  have e : compressStep compressInit c = { compressInit with current := [c] } := rfl
  rw [e]
  refine ⟨by simp, ⟨_, rfl⟩, fun b => rfl, ?_, ?_, Or.inl ⟨rfl, rfl, rfl, rfl⟩⟩
  · intro k1 k2 v h1 h2
    obtain ⟨b1, rfl, e1⟩ := initialDictionary_eq_some k1 v h1
    obtain ⟨b2, rfl, e2⟩ := initialDictionary_eq_some k2 v h2
    have : b1 = b2 := Fin.ext (by omega)
    rw [this]
  · intro k v h
    obtain ⟨b, rfl, e⟩ := initialDictionary_eq_some k v h
    have := b.isLt
    show v < 256
    omega

theorem sync_step (t : List Byte) (st : CompressState) (hs : Sync t st) (c : Byte) :
    Sync (t ++ [c]) (compressStep st c) := by
  obtain ⟨w, hw⟩ : ∃ w, w = st.current := ⟨_, rfl⟩
  have hne : w ≠ [] := hw ▸ hs.current_ne
  cases hfind : st.dictionary (st.current ++ [c]) with
  | some v2 =>
    have e : compressStep st c = { st with current := st.current ++ [c] } := by
      simp only [compressStep, hfind]
    rw [e]
    refine ⟨by simp, ⟨v2, hfind⟩, hs.singles, hs.inj, hs.bound, ?_⟩
    rcases hs.decoded with ⟨h1, h2, h3, h4⟩ | ⟨ds, h1, h2, h3, h4, h5, h6⟩
    · exact Or.inl ⟨h1, by simp only [h2], h3, h4⟩
    · refine Or.inr ⟨ds, h1, ?_, h3, h4, ?_, h6⟩
      · simp only [← h2, List.append_assoc]
      · have : (st.current ++ [c]).headD 0 = st.current.headD 0 := by
          rw [← hw]
          cases w with
          | nil => exact absurd rfl hne
          | cons a l => rfl
        simp only [this]
        exact h5
  | none =>
    obtain ⟨v, hv⟩ := hs.current_in
    have hneq : st.current ≠ st.current ++ [c] := by
      intro h
      have := congrArg List.length h
      simp at this
    have hlook : lookupString (insertString st.dictionary (st.current ++ [c]) st.code)
        (st.current ++ [c]).dropLast =
        (v, insertString st.dictionary (st.current ++ [c]) st.code) := by
      rw [List.dropLast_concat]
      simp only [lookupString, insertString, if_neg hneq, hv]
    have e : compressStep st c =
        { dictionary := insertString st.dictionary (st.current ++ [c]) st.code,
          current := [c], compressed := st.compressed ++ [v], code := st.code + 1 } := by
      simp only [compressStep, hfind, hlook]
    rw [e]
    have hsingle : ∀ b : Byte, [b] ≠ st.current ++ [c] := by
      intro b h
      have := congrArg List.length h
      rw [← hw] at this
      cases w with
      | nil => exact absurd rfl hne
      | cons a l => simp at this
    obtain ⟨ds, g1, g2, g3, g4, g5⟩ := decode_emitted t st hs v hv
    refine ⟨by simp, ⟨_, by
      show insertString st.dictionary (st.current ++ [c]) st.code [c] = _
      simp only [insertString, if_neg (hsingle c)]
      exact hs.singles c⟩, fun b => ?_, ?_, ?_, Or.inr ⟨ds, g1, ?_, ?_, ?_, ?_, ?_⟩⟩
    · show insertString st.dictionary (st.current ++ [c]) st.code [b] = _
      simp only [insertString, if_neg (hsingle b)]
      exact hs.singles b
    · intro k1 k2 x h1 h2
      simp only [insertString] at h1 h2
      by_cases e1 : k1 = st.current ++ [c] <;> by_cases e2 : k2 = st.current ++ [c]
      · rw [e1, e2]
      · rw [if_pos e1] at h1
        rw [if_neg e2] at h2
        simp only [Option.some.injEq] at h1
        have := hs.bound k2 x h2
        omega
      · rw [if_neg e1] at h1
        rw [if_pos e2] at h2
        simp only [Option.some.injEq] at h2
        have := hs.bound k1 x h1
        omega
      · rw [if_neg e1] at h1
        rw [if_neg e2] at h2
        exact hs.inj k1 k2 x h1 h2
    · intro k x h
      simp only [insertString] at h
      show x < st.code + 1
      by_cases e1 : k = st.current ++ [c]
      · rw [if_pos e1] at h
        simp only [Option.some.injEq] at h
        omega
      · rw [if_neg e1] at h
        have := hs.bound k x h
        omega
    · show ds.decompressed ++ [c] = t ++ [c]
      rw [g2]
    · show ds.code + 1 = st.code + 1
      rw [g4]
    · rw [g3]; exact hs.current_ne
    · show insertString st.dictionary (st.current ++ [c]) st.code
        (ds.current ++ [List.headD [c] 0]) = some ds.code
      simp only [insertString, g3, List.headD_cons, if_true, g4]
    · intro k x
      show ds.dictionary x = some k ↔
        insertString st.dictionary (st.current ++ [c]) st.code k = some x ∧ x ≠ ds.code
      simp only [insertString]
      rw [g5 k x, g4]
      by_cases e1 : k = st.current ++ [c]
      · rw [if_pos e1, e1, hfind]
        constructor
        · intro h; simp at h
        · intro h
          simp only [Option.some.injEq] at h
          exact absurd h.1.symm h.2
      · rw [if_neg e1]
        constructor
        · intro h
          have := hs.bound k x h
          exact ⟨h, by omega⟩
        · intro h; exact h.1

theorem sync_foldl :
    ∀ (rest t : List Byte) (st : CompressState), Sync t st →
      Sync (t ++ rest) (rest.foldl compressStep st) := by
  intro rest
  induction rest with
  | nil => intro t st h; simpa using h
  | cons c rest ih =>
    intro t st h
    have := ih (t ++ [c]) _ (sync_step t st h c)
    simpa using this

/-- Round trip of the dictionary coder on every non-empty text. -/
theorem decompress_compress (text : List Byte) (h : text ≠ []) :
    decompress (compress text) = .ok text := by
  cases text with
  | nil => exact absurd rfl h
  | cons c rest =>
    have hs : Sync (c :: rest) (rest.foldl compressStep (compressStep compressInit c)) := by
      simpa using sync_foldl rest [c] _ (sync_init c)
    obtain ⟨v, hv⟩ := hs.current_in
    obtain ⟨ds, g1, g2, _, _, _⟩ := decode_emitted _ _ hs v hv
    have hc : compress (c :: rest) =
        (rest.foldl compressStep (compressStep compressInit c)).compressed ++ [v] := by
      simp only [compress, List.foldl_cons, ne_eq, hs.current_ne, not_false_eq_true, if_true,
        lookupString, hv]
    rw [hc]
    simp only [decompress, g1, g2]

theorem decompressLoop_steps :
    ∀ (xs : List Int) (st ds : DecompressState), decompressLoop xs st = .ok ds →
      ∀ (i : Nat) (c : Int), xs[i]? = some c →
        ∃ di, decompressLoop (xs.take i) st = .ok di ∧
          (di.dictionary c ≠ none ∨ c = di.code) := by
  intro xs
  induction xs with
  | nil => intro st ds _ i c hc; simp at hc
  | cons x xs ih =>
    intro st ds h i c hc
    simp only [decompressLoop] at h
    cases hx : decompressStep st x with
    | error e => rw [hx] at h; simp at h
    | ok next =>
      rw [hx] at h
      cases i with
      | zero =>
        simp only [List.getElem?_cons_zero, Option.some.injEq] at hc
        subst hc
        refine ⟨st, rfl, ?_⟩
        unfold decompressStep at hx
        cases hd : st.dictionary x with
        | some entry => exact Or.inl (by simp)
        | none =>
          rw [hd] at hx
          by_cases hcode : x = st.code
          · exact Or.inr hcode
          · simp [hcode] at hx
      | succ i =>
        simp only [List.getElem?_cons_succ] at hc
        obtain ⟨di, h1, h2⟩ := ih next ds h i c hc
        exact ⟨di, by simp only [List.take_succ_cons, decompressLoop, hx, h1], h2⟩

/-- C18: for every non-empty text `t`, `decompress (compress t)` returns `t`; the
replay never reaches the "code not found" branch: every code after the first is
in the decoder's dictionary or is the next code to be assigned. -/
theorem lzw_roundtrip (t : List Byte) (h : t ≠ []) :
    decompress (compress t) = .ok t ∧
      ∀ (i : Nat) (c : Int), 0 < i → (compress t)[i]? = some c →
        ∃ ds, decompressRun ((compress t).take i) = .ok ds ∧
          (ds.dictionary c ≠ none ∨ c = ds.code) := by
  have hrt := decompress_compress t h
  refine ⟨hrt, fun i c hi hc => ?_⟩
  cases hcomp : compress t with
  | nil => rw [hcomp] at hc; simp at hc
  | cons first rest =>
    rw [hcomp] at hc hrt
    obtain ⟨j, rfl⟩ : ∃ j, i = j + 1 := ⟨i - 1, by omega⟩
    simp only [List.getElem?_cons_succ] at hc
    simp only [decompress, decompressRun] at hrt
    cases hl : decompressLoop rest (decompressInit first) with
    | error e => rw [hl] at hrt; simp at hrt
    | ok ds =>
      obtain ⟨di, h1, h2⟩ := decompressLoop_steps rest _ ds hl j c hc
      exact ⟨di, by simp only [List.take_succ_cons, decompressRun, h1], h2⟩

/-- C18 (witness): `"AAAAAAA"` is coded `65, 256, 257, 65`; the codes 256 and 257
are each the next code of the decoder when they are read. -/
theorem lzw_roundtrip_witness :
    ([65, 65, 65, 65, 65, 65, 65] : List Byte) ≠ [] ∧
      compress [65, 65, 65, 65, 65, 65, 65] = [65, 256, 257, 65] ∧
      decompress (compress [65, 65, 65, 65, 65, 65, 65]) =
        .ok [65, 65, 65, 65, 65, 65, 65] :=
  ⟨by decide, by decide, (lzw_roundtrip [65, 65, 65, 65, 65, 65, 65] (by decide)).1⟩

end LZWCompression

/-! ## The binary-split coder -/

namespace ShannonFano

theorem foldl_count (l : List (Byte × Int)) :
    ∀ a : Int, l.foldl (fun sum p => sum + p.2) a = a + (l.map Prod.snd).sum := by
  induction l with
  | nil => intro a; simp
  | cons p l ih =>
    intro a
    simp only [List.foldl_cons, List.map_cons, List.sum_cons, ih]
    omega

theorem totalCount_eq (l : List (Byte × Int)) : totalCount l = (l.map Prod.snd).sum := by
  unfold totalCount
  rw [foldl_count]
  omega

theorem splitLoop_bound (half : Int) :
    ∀ (rest : List (Byte × Int)) (i : Nat) (acc : Int) (split : Nat),
      half < acc + (rest.map Prod.snd).sum →
      splitLoop half rest i acc split = split ∨
        (i ≤ splitLoop half rest i acc split ∧
          splitLoop half rest i acc split + 1 < i + rest.length) := by
  intro rest
  induction rest with
  | nil => intro i acc split _; exact Or.inl rfl
  | cons p rest ih =>
    intro i acc split h
    unfold splitLoop
    by_cases hgt : acc + p.2 > half
    · rw [if_pos hgt]; exact Or.inl rfl
    · rw [if_neg hgt]
      simp only [List.map_cons, List.sum_cons] at h
      have hrest : rest ≠ [] := by
        intro e
        subst e
        simp at h
        omega
      have hlen : 0 < rest.length := List.length_pos.2 hrest
      rcases ih (i + 1) (acc + p.2) i (by omega) with e | ⟨e1, e2⟩
      · rw [e]
        exact Or.inr ⟨le_refl _, by simp only [List.length_cons]; omega⟩
      · exact Or.inr ⟨by omega, by simp only [List.length_cons]; omega⟩

theorem sum_pos_of_pos (l : List (Byte × Int)) (hl : l ≠ []) (hp : ∀ p, p ∈ l → 0 < p.2) :
    0 < (l.map Prod.snd).sum := by
  induction l with
  | nil => exact absurd rfl hl
  | cons p l ih =>
    simp only [List.map_cons, List.sum_cons]
    have h1 := hp p (List.mem_cons_self _ _)
    by_cases hn : l = []
    · subst hn; simpa using h1
    · have := ih hn (fun q hq => hp q (List.mem_cons_of_mem _ hq))
      omega

/-- Both halves of a split are non-empty. -/
theorem splitIndex_lt (l : List (Byte × Int)) (h2 : 2 ≤ l.length)
    (hp : ∀ p, p ∈ l → 0 < p.2) : splitIndex l + 1 < l.length := by
  have hne : l ≠ [] := by intro e; subst e; simp at h2
  have hpos := sum_pos_of_pos l hne hp
  have hhalf : ((l.map Prod.snd).sum).tdiv 2 < 0 + (l.map Prod.snd).sum := by
    rw [Int.tdiv_eq_ediv (by omega) (by omega)]
    omega
  unfold splitIndex
  rw [totalCount_eq]
  rcases splitLoop_bound _ l 0 0 0 hhalf with e | ⟨_, e2⟩
  · rw [e]; omega
  · omega

theorem build_tree_spec :
    ∀ (fuel : Nat) (fr : List (Byte × Int)) (pre : List Byte)
      (codes : Byte → Option (List Byte)),
      fr ≠ [] → fr.length ≤ fuel → (∀ p, p ∈ fr → 0 < p.2) → (fr.map Prod.fst).Nodup →
      ∃ codes2, build_tree fuel fr pre codes = some codes2 ∧ TreeCodes fr pre codes codes2 := by
  intro fuel
  induction fuel with
  | zero =>
    intro fr pre codes hne hlen
    exfalso
    exact hne (List.length_eq_zero.1 (by omega))
  | succ fuel ih =>
    intro fr pre codes hne hlen hpos hnd
    match fr, hne, hlen, hpos, hnd with
    | [p], _, _, _, _ =>
      refine ⟨setCode codes p.1 pre, rfl, ⟨fun c hc => ?_, fun c hc => ?_, ?_⟩⟩
      · simp only [List.map_cons, List.map_nil, List.mem_singleton] at hc
        simp only [setCode, if_neg hc]
      · simp only [List.map_cons, List.map_nil, List.mem_singleton] at hc
        exact ⟨[], by simp only [setCode, if_pos hc, List.append_nil], fun h => by simp at h⟩
      · intro c1 c2 w1 w2 h1 h2 hne
        simp only [List.map_cons, List.map_nil, List.mem_singleton] at h1 h2
        exact absurd (h1.trans h2.symm) hne
    | p :: q :: more, _, hlen, hpos, hnd =>
      have hsplit := splitIndex_lt (p :: q :: more) (by simp) hpos
      obtain ⟨left, hleft⟩ : ∃ l, l = (p :: q :: more).take (splitIndex (p :: q :: more) + 1) :=
        ⟨_, rfl⟩
      obtain ⟨right, hright⟩ :
          ∃ r, r = (p :: q :: more).drop (splitIndex (p :: q :: more) + 1) := ⟨_, rfl⟩
      have happ : left ++ right = p :: q :: more := by
        rw [hleft, hright, List.take_append_drop]
      have hl_len : left.length = splitIndex (p :: q :: more) + 1 := by
        rw [hleft, List.length_take]; omega
      have hr_len : right.length = (p :: q :: more).length - (splitIndex (p :: q :: more) + 1) := by
        rw [hright, List.length_drop]
      have hl_ne : left ≠ [] := by
        intro e; rw [e] at hl_len; simp at hl_len
      have hr_ne : right ≠ [] := by
        intro e; rw [e] at hr_len; simp only [List.length_nil] at hr_len; omega
      have hkeys : (p :: q :: more).map Prod.fst = left.map Prod.fst ++ right.map Prod.fst := by
        rw [← happ, List.map_append]
      rw [hkeys] at hnd
      obtain ⟨hndl, hndr, hdisj⟩ := List.nodup_append.1 hnd
      have hposl : ∀ x, x ∈ left → 0 < x.2 := fun x hx =>
        hpos x (by rw [← happ]; exact List.mem_append_left _ hx)
      have hposr : ∀ x, x ∈ right → 0 < x.2 := fun x hx =>
        hpos x (by rw [← happ]; exact List.mem_append_right _ hx)
      obtain ⟨codes1, hb1, t1⟩ := ih left (pre ++ [48]) codes hl_ne (by omega) hposl hndl
      obtain ⟨codes2, hb2, t2⟩ := ih right (pre ++ [49]) codes1 hr_ne
        (by simp only [List.length_cons] at hlen hr_len; omega) hposr hndr
      have hrun : build_tree (fuel + 1) (p :: q :: more) pre codes = some codes2 := by
        simp only [build_tree]
        rw [← hleft, ← hright, hb1]
        exact hb2
      have hleftval : ∀ c, c ∈ left.map Prod.fst →
          ∃ s, codes2 c = some (pre ++ 48 :: s) := by
        intro c hc
        obtain ⟨s, hs, _⟩ := t1.inside c hc
        refine ⟨s, ?_⟩
        rw [t2.outside c (fun hr => hdisj hc hr), hs]
        simp
      have hrightval : ∀ c, c ∈ right.map Prod.fst →
          ∃ s, codes2 c = some (pre ++ 49 :: s) := by
        intro c hc
        obtain ⟨s, hs, _⟩ := t2.inside c hc
        exact ⟨s, by rw [hs]; simp⟩
      refine ⟨codes2, hrun, ⟨fun c hc => ?_, fun c hc => ?_, ?_⟩⟩
      · rw [hkeys, List.mem_append, not_or] at hc
        rw [t2.outside c hc.2, t1.outside c hc.1]
      · rw [hkeys, List.mem_append] at hc
        rcases hc with hc | hc
        · obtain ⟨s, hs⟩ := hleftval c hc
          exact ⟨48 :: s, hs, fun _ => by simp⟩
        · obtain ⟨s, hs⟩ := hrightval c hc
          exact ⟨49 :: s, hs, fun _ => by simp⟩
      · intro c1 c2 w1 w2 h1 h2 hne hw1 hw2 s hs
        rw [hkeys, List.mem_append] at h1 h2
        rcases h1 with h1 | h1 <;> rcases h2 with h2 | h2
        · rw [t2.outside c1 (fun hr => hdisj h1 hr)] at hw1
          rw [t2.outside c2 (fun hr => hdisj h2 hr)] at hw2
          exact t1.free c1 c2 w1 w2 h1 h2 hne hw1 hw2 s hs
        · obtain ⟨s1, e1⟩ := hleftval c1 h1
          obtain ⟨s2, e2⟩ := hrightval c2 h2
          rw [e1] at hw1
          rw [e2] at hw2
          simp only [Option.some.injEq] at hw1 hw2
          rw [← hw1, ← hw2, List.append_assoc, List.append_cancel_left_eq] at hs
          simp at hs
        · obtain ⟨s1, e1⟩ := hrightval c1 h1
          obtain ⟨s2, e2⟩ := hleftval c2 h2
          rw [e1] at hw1
          rw [e2] at hw2
          simp only [Option.some.injEq] at hw1 hw2
          rw [← hw1, ← hw2, List.append_assoc, List.append_cancel_left_eq] at hs
          simp at hs
        · exact t2.free c1 c2 w1 w2 h1 h2 hne hw1 hw2 s hs

theorem decode_word (codes : Byte → Option (List Byte)) (loaded : List Byte → Option Byte)
    (hinv : ∀ w c, loaded w = some c ↔ codes c = some w)
    (hfree : ∀ c1 c2 w1 w2, c1 ≠ c2 → codes c1 = some w1 → codes c2 = some w2 →
      ∀ s, w1 ++ s ≠ w2) (c : Byte) (rest : List Byte) :
    ∀ (s p decoded : List Byte), codes c = some (p ++ s) → s ≠ [] →
      (s ++ rest).foldl (decompressStep loaded) (decoded, p) =
        rest.foldl (decompressStep loaded) (decoded ++ [c], []) := by
  intro s
  induction s with
  | nil => intro p decoded _ h; exact absurd rfl h
  | cons bit s ih =>
    intro p decoded hc _
    simp only [List.cons_append, List.foldl_cons]
    by_cases hs : s = []
    · subst hs
      have : loaded (p ++ [bit]) = some c := (hinv _ _).2 hc
      simp only [decompressStep, this, List.nil_append]
    · have hnone : loaded (p ++ [bit]) = none := by
        cases hl : loaded (p ++ [bit]) with
        | none => rfl
        | some c2 =>
          exfalso
          have hc2 := (hinv _ _).1 hl
          by_cases e : c2 = c
          · rw [e, hc] at hc2
            simp only [Option.some.injEq] at hc2
            have := congrArg List.length hc2
            simp only [List.length_append, List.length_cons, List.length_nil] at this
            have : s.length = 0 := by omega
            exact hs (List.length_eq_zero.1 this)
          · exact hfree c2 c _ _ e hc2 hc s (by simp)
      simp only [decompressStep, hnone]
      exact ih (p ++ [bit]) decoded (by simpa using hc) hs

theorem decode_text (codes : Byte → Option (List Byte)) (loaded : List Byte → Option Byte)
    (hinv : ∀ w c, loaded w = some c ↔ codes c = some w)
    (hfree : ∀ c1 c2 w1 w2, c1 ≠ c2 → codes c1 = some w1 → codes c2 = some w2 →
      ∀ s, w1 ++ s ≠ w2) :
    ∀ (text decoded : List Byte), (∀ c, c ∈ text → ∃ w, codes c = some w ∧ w ≠ []) →
      (text.flatMap (fun c => (codes c).getD [])).foldl (decompressStep loaded) (decoded, []) =
        (decoded ++ text, []) := by
  intro text
  induction text with
  | nil => intro decoded _; simp
  | cons c text ih =>
    intro decoded h
    obtain ⟨w, hw, hne⟩ := h c (List.mem_cons_self _ _)
    simp only [List.flatMap_cons, hw, Option.getD_some]
    rw [decode_word codes loaded hinv hfree c _ w [] decoded (by simpa using hw) hne]
    rw [ih (decoded ++ [c]) (fun d hd => h d (List.mem_cons_of_mem _ hd))]
    simp

theorem frequencyVector_pos (text : List Byte) (fr : List (Byte × Int))
    (h : IsFrequencyVector text fr) : ∀ p, p ∈ fr → 0 < p.2 := by
  intro p hp
  obtain ⟨h1, h2⟩ := h.2.1 p hp
  rw [h2]
  exact_mod_cast List.count_pos_iff.2 h1

theorem frequencyVector_length (text : List Byte) (fr : List (Byte × Int))
    (h : IsFrequencyVector text fr) (a b : Byte) (ha : a ∈ text) (hb : b ∈ text)
    (hab : a ≠ b) : 2 ≤ fr.length := by
  have h1 := h.2.2.1 a ha
  have h2 := h.2.2.1 b hb
  match fr, h1, h2 with
  | [], h1, _ => simp at h1
  | [p], h1, h2 =>
    simp only [List.map_cons, List.map_nil, List.mem_singleton] at h1 h2
    exact absurd (h1.trans h2.symm) hab
  | _ :: _ :: _, _, _ => simp

/-- C19: for a text with at least two distinct characters and any vector
`frequencies` that `compress` can hand over, `build_tree` terminates (each split
of a vector of two or more characters leaves both halves non-empty) and gives
every character of the text a non-empty code, no code being the beginning of
another; hence `decompress` of the compressed string with the inverse of
`get_codes()` returns the text. -/
theorem shannon_fano_roundtrip (text : List Byte) (frequencies : List (Byte × Int))
    (hf : IsFrequencyVector text frequencies)
    (h2 : ∃ a b, a ∈ text ∧ b ∈ text ∧ a ≠ b) :
    (∀ l : List (Byte × Int), 2 ≤ l.length → (∀ p, p ∈ l → 0 < p.2) →
      0 < (l.take (splitIndex l + 1)).length ∧ 0 < (l.drop (splitIndex l + 1)).length) ∧
    ∃ codes, buildCodes frequencies = some codes ∧
      (∀ c, c ∈ text → ∃ w, codes c = some w ∧ w ≠ []) ∧
      (∀ c1 c2 w1 w2, c1 ≠ c2 → codes c1 = some w1 → codes c2 = some w2 →
        ∀ s, w1 ++ s ≠ w2) ∧
      ∃ compressed, compress frequencies text = some compressed ∧
        ∀ loaded_codes : List Byte → Option Byte,
          (∀ w c, loaded_codes w = some c ↔ codes c = some w) →
          decompress compressed loaded_codes = text := by
  obtain ⟨a, b, ha, hb, hab⟩ := h2
  have hlen := frequencyVector_length text frequencies hf a b ha hb hab
  have hne : frequencies ≠ [] := by intro e; rw [e] at hlen; simp at hlen
  refine ⟨fun l hl hp => ?_, ?_⟩
  · have := splitIndex_lt l hl hp
    simp only [List.length_take, List.length_drop]
    omega
  · obtain ⟨codes, hb0, t⟩ := build_tree_spec frequencies.length frequencies [] noCodes hne
      (le_refl _) (frequencyVector_pos text frequencies hf) hf.1
    have hb1 : buildCodes frequencies = some codes := hb0
    have hkey : ∀ c w, codes c = some w → c ∈ frequencies.map Prod.fst := by
      intro c w hw
      by_contra hc
      rw [t.outside c hc] at hw
      simp [noCodes] at hw
    have hcode : ∀ c, c ∈ text → ∃ w, codes c = some w ∧ w ≠ [] := by
      intro c hc
      obtain ⟨s, hs, hs2⟩ := t.inside c (hf.2.2.1 c hc)
      exact ⟨s, by simpa using hs, hs2 hlen⟩
    have hfree : ∀ c1 c2 w1 w2, c1 ≠ c2 → codes c1 = some w1 → codes c2 = some w2 →
        ∀ s, w1 ++ s ≠ w2 := fun c1 c2 w1 w2 hne h1 h2 =>
      t.free c1 c2 w1 w2 (hkey c1 w1 h1) (hkey c2 w2 h2) hne h1 h2
    have hcomp : compress frequencies text =
        some (text.flatMap (fun c => (codes c).getD [])) := by
      simp only [compress, hb1]
    refine ⟨codes, hb1, hcode, hfree, _, hcomp, fun loaded hinv => ?_⟩
    unfold decompress
    rw [decode_text codes loaded hinv hfree text [] hcode]
    simp

set_option maxRecDepth 8000 in
/-- C19 (witness): for `"abac"` and the vector `(b,1) (c,1) (a,2)` the codes are
`a = "1"`, `b = "00"`, `c = "01"` and the compressed string is `"100101"`. -/
theorem shannon_fano_roundtrip_witness :
    IsFrequencyVector [97, 98, 97, 99] [(98, 1), (99, 1), (97, 2)] ∧
      compress [(98, 1), (99, 1), (97, 2)] [97, 98, 97, 99] = some [49, 48, 48, 49, 48, 49] ∧
      ∃ codes, buildCodes [(98, 1), (99, 1), (97, 2)] = some codes ∧
        ∀ loaded_codes : List Byte → Option Byte,
          (∀ w c, loaded_codes w = some c ↔ codes c = some w) →
          decompress [49, 48, 48, 49, 48, 49] loaded_codes = [97, 98, 97, 99] := by
  have hf : IsFrequencyVector [97, 98, 97, 99] [(98, 1), (99, 1), (97, 2)] := by decide
  have hc : compress [(98, 1), (99, 1), (97, 2)] [97, 98, 97, 99] =
      some [49, 48, 48, 49, 48, 49] := by decide
  obtain ⟨_, codes, h1, _, _, compressed, h4, h5⟩ :=
    shannon_fano_roundtrip [97, 98, 97, 99] [(98, 1), (99, 1), (97, 2)] hf
      ⟨97, 98, by decide, by decide, by decide⟩
  rw [hc] at h4
  simp only [Option.some.injEq] at h4
  subst h4
  exact ⟨hf, hc, codes, h1, h5⟩

end ShannonFano
